import Mathlib

/-!
# GO-Backend: the `mcp` orchestration core

A shallow embedding of the Go package `mcp` (`tools.go`, `messages.go`,
`types.go`, `service.go`) and of the message-building part of `chatHandler`
(`main.go`), followed by theorems about the embedded functions.

Conventions.
* A Go `string` is a finite sequence of bytes: `GoString = List UInt8`.
  `len(s)` is `s.length`, `s[i]` is the `i`-th byte, `+` is `++`.
  String literals of the source are written `lit "..."`, their UTF-8 encoding.
* Functions of the Go standard library are modelled by what their
  documentation says (`strings.Contains`, `strings.ToLower`, `fmt.Sprintf`).
* A run-time panic (index out of range, nil dereference) is the result `none`.
-/

namespace GoBackend

/-! ## Strings -/

/-- A Go string: an immutable sequence of bytes. -/
abbrev GoString := List UInt8

/-- UTF-8 encoding of a sequence of Unicode characters, as the Go compiler
stores a string literal. -/
def utf8 (cs : List Char) : GoString := cs.flatMap String.utf8EncodeChar

/-- A string literal of the source. -/
def lit (s : String) : GoString := utf8 s.toList

/-- A byte constant such as `'?'` (an ASCII rune used as a byte). -/
def byteOf (c : Char) : UInt8 := c.toNat.toUInt8

/-- Library function `strings.HasPrefix(s, prefix)`. -/
def HasPrefix : GoString → GoString → Bool
  | _, [] => true
  | [], _ :: _ => false
  | c :: s, p :: ps => c == p && HasPrefix s ps

/-- The search loop of `strings.Index`: the first position `i + k` such that
`substr` is a prefix of the text `k` bytes further on, or `-1`. -/
def indexFrom (substr : GoString) : GoString → Nat → Int
  | [], i => if HasPrefix [] substr then (i : Int) else -1
  | c :: s, i => if HasPrefix (c :: s) substr then (i : Int) else indexFrom substr s (i + 1)

/-- Library function `strings.Index(s, substr)`: index of the first instance of `substr` in
`s`, or `-1` if `substr` is not present in `s`. -/
def Index (s substr : GoString) : Int := indexFrom substr s 0

/-- Library function `strings.Contains(s, substr)`, which is `Index(s, substr) >= 0`. -/
def Contains (s substr : GoString) : Bool := decide (Index s substr ≥ 0)

/-- The ASCII branch of `strings.ToLower` on one byte:
`if 'A' <= c && c <= 'Z' { c += 'a' - 'A' }`. -/
def lowerByte (c : UInt8) : UInt8 :=
  if byteOf 'A' ≤ c ∧ c ≤ byteOf 'Z' then c + (byteOf 'a' - byteOf 'A') else c

/-- The test `c >= utf8.RuneSelf` of `strings.ToLower`, negated, over the
whole string. -/
def isASCII (s : GoString) : Bool := s.all (fun c => decide (c < 128))

/-- Library function `strings.ToLower(s)`. A string of ASCII bytes is lower-cased byte by byte.
Any other string goes through `strings.Map(unicode.ToLower, s)`, which depends
on the Unicode tables of the standard library: it is the parameter
`mapLower`. -/
def ToLower (mapLower : GoString → GoString) (s : GoString) : GoString :=
  if isASCII s then s.map lowerByte else mapLower s

/-! ## `mcp/tools.go` -/

/-- The Go struct `Tool`. -/
structure Tool where
  Name : GoString
  Description : GoString
  Keywords : List GoString
  deriving DecidableEq

/-- The package-level registry `tools`. -/
def tools : List Tool :=
  [ { Name := lit "analyze_image", Description := [],
      Keywords := [lit "analyze image", lit "image analysis"] },
    { Name := lit "categorize_machinery", Description := [],
      Keywords := [lit "categorize machinery", lit "machinery categorization"] },
    { Name := lit "summarize_report", Description := [],
      Keywords := [lit "summary", lit "summarize report"] } ]

/-- The inner loop of `DetermineTools`: the keywords are tried in order and
the first one contained in the text ends the loop (`break`). -/
def matchesAny (userInputLower : GoString) : List GoString → Bool
  | [] => false
  | kw :: kws => if Contains userInputLower kw then true else matchesAny userInputLower kws

/-- The outer loop of `DetermineTools` over the remaining tools, `selected`
being the slice built so far. -/
def selectLoop (userInputLower : GoString) : List Tool → List GoString → List GoString
  | [], selected => selected
  | tool :: rest, selected =>
    if matchesAny userInputLower tool.Keywords then
      selectLoop userInputLower rest (selected ++ [tool.Name])
    else
      selectLoop userInputLower rest selected

/-- Go function `DetermineTools(userInput)`. -/
def DetermineTools (mapLower : GoString → GoString) (userInput : GoString) : List GoString :=
  let userInputLower := ToLower mapLower userInput
  selectLoop userInputLower tools []

/-! ## `mcp/messages.go` -/

/-- The Go struct `Message` (and `LLMMessage`, which has the same fields). -/
structure Message where
  Role : GoString
  Content : GoString
  deriving DecidableEq

/-- Go function `DetectInputType(text)`. The byte `text[len(text)-1]` is read with a
checked index: `none` is the index-out-of-range panic. -/
def DetectInputType (text : GoString) : Option GoString :=
  if text.length = 0 then some (lit "unknown")
  else
    match text[text.length - 1]? with
    | none => none
    | some lastChar =>
      if lastChar = byteOf '?' then some (lit "question")
      else if text.length > 50 then some (lit "observation")
      else some (lit "request")

/-- Go function `BuildSystemPrompt(inputType)`. -/
def BuildSystemPrompt (inputType : GoString) : GoString :=
  if inputType = lit "question" then
    lit "You are a helpful risk assessment LLM. Answer questions clearly and concisely."
  else if inputType = lit "request" then
    lit "You are a proactive risk assessment LLM. Take action-oriented steps to address the request."
  else if inputType = lit "observation" then
    lit "You are a risk assessment LLM. Analyze the information and summarize any potential risks."
  else
    lit "You are a helpful risk assessment LLM. Respond appropriately."

/-- Go function `BuildLLMMessagesDynamic(userText)`. -/
def BuildLLMMessagesDynamic (userText : GoString) : Option (List Message) :=
  match DetectInputType userText with
  | none => none
  | some inputType =>
    let systemPrompt := BuildSystemPrompt inputType
    some [ { Role := lit "system", Content := systemPrompt },
           { Role := lit "user", Content := userText } ]

/-! ## `mcp/types.go` -/

/-- The Go struct `RunOutput`, the accumulator shared by the tasks of a run. -/
structure RunOutput where
  ID : GoString
  Answer : GoString
  Machinery : List GoString
  deriving DecidableEq

/-- The Go struct `Task`. `Subtasks` owns the child tasks; `CreatedAt` is a
clock reading; `RunOutput` is a pointer into the heap of `RunOutput` cells,
`none` being the nil pointer. -/
inductive Task where
  | mk (ID RunID TaskType Input Output Status : GoString) (Subtasks : List Task)
      (CreatedAt : Int) (RunOutput : Option Nat) : Task

namespace Task

def ID : Task → GoString
  | mk id _ _ _ _ _ _ _ _ => id

def RunID : Task → GoString
  | mk _ runID _ _ _ _ _ _ _ => runID

/-- The field `Type` of the Go struct (`Type` is reserved in Lean). -/
def TaskType : Task → GoString
  | mk _ _ typ _ _ _ _ _ _ => typ

def Input : Task → GoString
  | mk _ _ _ input _ _ _ _ _ => input

def Output : Task → GoString
  | mk _ _ _ _ output _ _ _ _ => output

def Status : Task → GoString
  | mk _ _ _ _ _ status _ _ _ => status

def Subtasks : Task → List Task
  | mk _ _ _ _ _ _ subtasks _ _ => subtasks

def CreatedAt : Task → Int
  | mk _ _ _ _ _ _ _ createdAt _ => createdAt

def RunOutput : Task → Option Nat
  | mk _ _ _ _ _ _ _ _ runOutput => runOutput

end Task

/-- The Go struct `Run`. -/
structure Run where
  ID : GoString
  CreatedAt : Int
  Tasks : List Task

/-! ## Memory and observable events -/

/-- What `ExecuteTask` does that can be observed from outside, in the order in
which it happens: an assignment to `task.Status`, and the line written by
`fmt.Println("Task done:", task.Input, "Output:", task.Output)`. -/
inductive Event where
  | status (taskID input status : GoString) : Event
  | taskDone (input output : GoString) : Event
  deriving DecidableEq

/-- The mutable state a run works on: the heap cells holding `RunOutput`
values (a pointer is an index into `heap`) and the events so far. -/
structure Mem where
  heap : List RunOutput
  trace : List Event
  deriving DecidableEq

/-- Append an event to the trace. -/
def Mem.emit (mem : Mem) (e : Event) : Mem :=
  { mem with trace := mem.trace ++ [e] }

/-- Dereference a `*RunOutput`. The nil pointer gives `none` (the nil
dereference panic); so does an address outside the heap, which no Go pointer
holds. -/
def Mem.load (mem : Mem) : Option Nat → Option RunOutput
  | none => none
  | some p => mem.heap[p]?

/-- Store through a `*RunOutput` that `Mem.load` has accepted. -/
def Mem.store (mem : Mem) (p : Option Nat) (r : RunOutput) : Mem :=
  match p with
  | none => mem
  | some a => { mem with heap := mem.heap.set a r }

/-- The allocation `&RunOutput{...}`: allocate a new cell, returning its address. -/
def Mem.alloc (mem : Mem) (r : RunOutput) : Nat × Mem :=
  (mem.heap.length, { mem with heap := mem.heap ++ [r] })

/-! ## `mcp/service.go`: the executor -/

/-- Library function `fmt.Sprintf("%d", n)`. -/
def fmtInt (n : Int) : GoString := lit (toString n)

/-- Go function `NewRunID()`, `now` being the reading `time.Now().UnixNano()`. -/
def NewRunID (now : Int) : GoString := lit "run-" ++ fmtInt now

/-- Go function `NewTaskID()`, `now` being the reading `time.Now().UnixNano()`. -/
def NewTaskID (now : Int) : GoString := lit "task-" ++ fmtInt now

/-- Go function `BuildRunWithOutput(input)`. `clock k` is the `k`-th reading of the clock
the function takes (eight in all). The two lines it prints before returning
are not events of the executor and are left out. -/
def BuildRunWithOutput (clock : Nat → Int) (input : GoString) (mem : Mem) : Run × Mem :=
  let _ := input
  let runID := NewRunID (clock 0)
  let (output, mem) := mem.alloc { ID := runID, Answer := lit "", Machinery := [] }
  let listMachinery :=
    Task.mk (NewTaskID (clock 3)) runID (lit "LLM") (lit "List all machinery") (lit "")
      (lit "pending") [] (clock 4) (some output)
  let categorizeMachinery :=
    Task.mk (NewTaskID (clock 5)) runID (lit "Tool") (lit "Categorize machinery") (lit "")
      (lit "pending") [] (clock 6) (some output)
  let mainTask :=
    Task.mk (NewTaskID (clock 1)) runID (lit "LLM") (lit "Analyze scenario") (lit "")
      (lit "pending") [listMachinery, categorizeMachinery] (clock 2) (some output)
  ({ ID := runID, CreatedAt := clock 7, Tasks := [mainTask] }, mem)

/-- The `if task.Type == "LLM"` block of `ExecuteTask`: the new `task.Output`
and memory, or `none` when `task.RunOutput` is dereferenced and is nil. -/
def llmStep (typ input output : GoString) (runOutput : Option Nat) (mem : Mem) :
    Option GoString × Mem :=
  if typ = lit "LLM" then
    let fakeOutput := lit "Fake LLM response for: " ++ input
    if input = lit "Analyze scenario" then
      match mem.load runOutput with
      | none => (none, mem)
      | some r => (some fakeOutput, mem.store runOutput { r with Answer := fakeOutput })
    else if input = lit "List all machinery" then
      match mem.load runOutput with
      | none => (none, mem)
      | some r =>
        (some fakeOutput,
          mem.store runOutput
            { r with Machinery := r.Machinery ++ [lit "Excavator", lit "Crane", lit "Bulldozer"] })
    else (some fakeOutput, mem)
  else (some output, mem)

/-- The loop `for _, m := range ... { categorized = append(categorized, m+": Heavy Equipment") }`. -/
def categorizeLoop : List GoString → List GoString → List GoString
  | [], categorized => categorized
  | m :: rest, categorized => categorizeLoop rest (categorized ++ [m ++ lit ": Heavy Equipment"])

/-- The `if task.Type == "Tool" && task.Input == "Categorize machinery"` block
of `ExecuteTask`. -/
def toolStep (typ input output : GoString) (runOutput : Option Nat) (mem : Mem) :
    Option GoString × Mem :=
  if typ = lit "Tool" ∧ input = lit "Categorize machinery" then
    match mem.load runOutput with
    | none => (none, mem)
    | some r =>
      let categorized := categorizeLoop r.Machinery []
      (some (lit "Categorized machinery"),
        mem.store runOutput { r with Machinery := categorized })
  else (some output, mem)

/-- The body of `ExecuteTask` up to the loop over the subtasks: the task's own
work. Returns the final `task.Output`, or `none` on a panic. -/
def ownStep (taskID typ input output : GoString) (runOutput : Option Nat) (mem : Mem) :
    Option GoString × Mem :=
  let mem := mem.emit (Event.status taskID input (lit "running"))
  match llmStep typ input output runOutput mem with
  | (none, mem) => (none, mem)
  | (some output, mem) =>
    match toolStep typ input output runOutput mem with
    | (none, mem) => (none, mem)
    | (some output, mem) =>
      let mem := mem.emit (Event.status taskID input (lit "done"))
      let mem := mem.emit (Event.taskDone input output)
      (some output, mem)

mutual

/-- Go function `ExecuteTask(task)`: the task as it is left, or `none` if a panic stopped
the execution, and the memory at that point. -/
def ExecuteTask : Task → Mem → Option Task × Mem
  | Task.mk taskID runID typ input output _ subtasks createdAt runOutput, mem =>
    match ownStep taskID typ input output runOutput mem with
    | (none, mem) => (none, mem)
    | (some output, mem) =>
      match ExecuteSubtasks subtasks mem with
      | (none, mem) => (none, mem)
      | (some subtasks, mem) =>
        (some (Task.mk taskID runID typ input output (lit "done") subtasks createdAt runOutput),
          mem)

/-- The loop `for _, sub := range task.Subtasks { ExecuteTask(sub) }`. -/
def ExecuteSubtasks : List Task → Mem → Option (List Task) × Mem
  | [], mem => (some [], mem)
  | sub :: rest, mem =>
    match ExecuteTask sub mem with
    | (none, mem) => (none, mem)
    | (some sub, mem) =>
      match ExecuteSubtasks rest mem with
      | (none, mem) => (none, mem)
      | (some rest, mem) => (some (sub :: rest), mem)

end

/-! ## JSON values and the RPC envelopes

`encoding/json` is outside the repository. A JSON text is represented by its
syntax tree, an object by the ordered list of its members, so that a key that
is absent and a key that is present with the value `null` are different
trees; white space and the escapes of a string are not part of the tree, and
a number is an integer. A Go value of type `interface{}` is represented by a
tree as well: the nil interface by `null`, a string by its bytes, a number by
its value, a struct by its members in declared order, a map by its members in
the order of the keys; the dynamic type is not represented. -/

/-- A JSON value. -/
inductive Json where
  | null : Json
  | bool (b : Bool) : Json
  | num (n : Int) : Json
  | str (s : GoString) : Json
  | arr (elems : List Json) : Json
  | obj (members : List (GoString × Json)) : Json

/-- The value an object gives to `key`: that of the last member with this
key, as `json.Unmarshal` resolves duplicates; `none` when the key is absent. -/
def Json.field (key : GoString) : Json → Option Json
  | Json.obj members =>
    ((members.filter (fun kv => decide (kv.1 = key))).getLast?).map Prod.snd
  | _ => none

/-- The Go struct `LLMMessage` as `json.Marshal` writes it
(tags `role`, `content`). -/
def Message.toJson (m : Message) : Json :=
  Json.obj [(lit "role", Json.str m.Role), (lit "content", Json.str m.Content)]

/-- The Go struct `LLMParams`. -/
structure LLMParams where
  Messages : List Message

/-- The Go value `LLMParams{...}` as `json.Marshal` writes it (tag `messages`;
a nil slice is written `null`, which the list `[]` here is not: every
`LLMParams` of the source is built from a slice literal). -/
def LLMParams.toJson (p : LLMParams) : Json :=
  Json.obj [(lit "messages", Json.arr (p.Messages.map Message.toJson))]

/-- The Go struct `JsonRPCRequest`. `Params` has type `interface{}`. -/
structure JsonRPCRequest where
  JSONRPC : GoString
  Method : GoString
  Params : Json
  ID : Int

/-- The Go struct `JsonRPCResponse`. `Result` is a `json.RawMessage`: `none`
is the nil slice, `some v` the text of the JSON value `v`. `Error` has type
`interface{}`: `none` is the nil interface. -/
structure JsonRPCResponse where
  JSONRPC : GoString
  Result : Option Json
  Error : Option Json
  ID : Int

/-! ### What `encoding/json` does to strings, numbers and objects -/

/-- The size `utf8.DecodeRuneInString` reports for the rune at the head of
`s`, or `0` where it reports `RuneError` with size 1: the head byte starts no
valid encoding (a continuation byte, `C0`, `C1`, `F5` and above, an over-long
or surrogate or out-of-range second byte, a missing continuation byte). -/
def runeLen : GoString → Nat
  | [] => 0
  | s0 :: rest =>
    if s0 < 0x80 then 1
    else if s0 < 0xC2 then 0
    else if s0 < 0xE0 then
      match rest with
      | s1 :: _ => if 0x80 ≤ s1 ∧ s1 ≤ 0xBF then 2 else 0
      | _ => 0
    else if s0 < 0xF0 then
      match rest with
      | s1 :: s2 :: _ =>
        if (if s0 = 0xE0 then 0xA0 else 0x80) ≤ s1 ∧ s1 ≤ (if s0 = 0xED then 0x9F else 0xBF)
            ∧ 0x80 ≤ s2 ∧ s2 ≤ 0xBF then 3 else 0
      | _ => 0
    else if s0 < 0xF5 then
      match rest with
      | s1 :: s2 :: s3 :: _ =>
        if (if s0 = 0xF0 then 0x90 else 0x80) ≤ s1 ∧ s1 ≤ (if s0 = 0xF4 then 0x8F else 0xBF)
            ∧ 0x80 ≤ s2 ∧ s2 ≤ 0xBF ∧ 0x80 ≤ s3 ∧ s3 ≤ 0xBF then 4 else 0
      | _ => 0
    else 0

/-- The loop of the string encoder and of the string decoder: `pending` bytes
of a valid rune are still to be copied; at a rune boundary a byte that starts
no valid encoding is replaced by U+FFFD (`EF BF BD`). -/
def coerceFrom : Nat → GoString → GoString
  | _, [] => []
  | pending + 1, c :: rest => c :: coerceFrom pending rest
  | 0, c :: rest =>
    match runeLen (c :: rest) with
    | 0 => 0xEF :: 0xBF :: 0xBD :: coerceFrom 0 rest
    | n + 1 => c :: coerceFrom n rest

/-- A string as it comes out of `json.Marshal` followed by `json.Unmarshal`
(and out of either alone): every byte that is not part of a valid UTF-8
encoding is replaced by U+FFFD. -/
def coerceUTF8 (s : GoString) : GoString := coerceFrom 0 s

/-- Go function `utf8.ValidString(s)`: the coercion changes nothing. -/
def validUTF8 (s : GoString) : Bool := decide (coerceUTF8 s = s)

/-- The number of binary digits of `m`, for `m` below `2 ^ fuel` (and `fuel`
for a larger `m`). -/
def bitLength : Nat → Nat → Nat
  | 0, _ => 0
  | fuel + 1, m => if m = 0 then 0 else bitLength fuel (m / 2) + 1

/-- The value of the `float64` that `strconv.ParseFloat` gives for the decimal
integer `n`: `n` itself below `2 ^ 53` in absolute value, otherwise `n` rounded
to 53 binary digits, ties to even; `none` is the range error of a number that
rounds to infinity (more than 1024 binary digits, before or after the
rounding). -/
def float64OfInt (n : Int) : Option Int :=
  let m := n.natAbs
  if m < 2 ^ 53 then some n
  else if 1024 < bitLength 1025 m then none
  else
    let e := bitLength 1025 m - 53
    let q := m / 2 ^ e
    let r := m % 2 ^ e
    let q2 := if 2 ^ e < 2 * r ∨ (2 * r = 2 ^ e ∧ q % 2 = 1) then q + 1 else q
    if q2 = 2 ^ 53 ∧ e = 971 then none else some (n.sign * ((q2 * 2 ^ e : Nat) : Int))

/-- Whether `a` comes before `b` in the byte-wise order of Go strings, the
order in which `json.Marshal` writes the keys of a map. -/
def keyLess : GoString → GoString → Bool
  | _, [] => false
  | [], _ :: _ => true
  | a :: as, b :: bs => decide (a.toNat < b.toNat) || (decide (a = b) && keyLess as bs)

/-- Store `kv` in a map kept in key order: a member with the same key is
replaced. -/
def insertMember (kv : GoString × Json) : List (GoString × Json) → List (GoString × Json)
  | [] => [kv]
  | x :: rest =>
    if kv.1 = x.1 then kv :: rest
    else if keyLess kv.1 x.1 then kv :: x :: rest
    else x :: insertMember kv rest

/-- The members of a JSON object once decoded into a `map[string]interface{}`:
stored one after the other, a later member replacing an earlier one with the
same key, and listed in key order. -/
def mapMembers (members : List (GoString × Json)) : List (GoString × Json) :=
  members.foldl (fun acc kv => insertMember kv acc) []

mutual

/-- The nesting depth of a JSON text: the number of arrays and objects open at
its deepest point. -/
def Json.depth : Json → Nat
  | Json.null => 0
  | Json.bool _ => 0
  | Json.num _ => 0
  | Json.str _ => 0
  | Json.arr elems => depthList elems + 1
  | Json.obj members => depthMembers members + 1

/-- The largest depth among the elements of an array. -/
def depthList : List Json → Nat
  | [] => 0
  | v :: rest => max v.depth (depthList rest)

/-- The largest depth among the values of the members of an object. -/
def depthMembers : List (GoString × Json) → Nat
  | [] => 0
  | (_, v) :: rest => max v.depth (depthMembers rest)

end

mutual

/-- Library function `json.Marshal` of an `interface{}` value: its tree, with
every string and key coerced to valid UTF-8. -/
def encodeAny : Json → Json
  | Json.null => Json.null
  | Json.bool b => Json.bool b
  | Json.num n => Json.num n
  | Json.str s => Json.str (coerceUTF8 s)
  | Json.arr elems => Json.arr (encodeAnyList elems)
  | Json.obj members => Json.obj (encodeAnyMembers members)

/-- The elements of an array under `encodeAny`. -/
def encodeAnyList : List Json → List Json
  | [] => []
  | v :: rest => encodeAny v :: encodeAnyList rest

/-- The members of an object under `encodeAny`. -/
def encodeAnyMembers : List (GoString × Json) → List (GoString × Json)
  | [] => []
  | (k, v) :: rest => (coerceUTF8 k, encodeAny v) :: encodeAnyMembers rest

end

mutual

/-- Library function `json.Unmarshal` into an `interface{}` field: `null`
stores the nil interface, a number is stored as a `float64`, a string with its
bytes coerced to valid UTF-8, an array as a `[]interface{}`, an object as a
`map[string]interface{}`; `none` is a decoding error. -/
def decodeAny : Json → Option Json
  | Json.null => some Json.null
  | Json.bool b => some (Json.bool b)
  | Json.num n => (float64OfInt n).map Json.num
  | Json.str s => some (Json.str (coerceUTF8 s))
  | Json.arr elems => (decodeAnyList elems).map Json.arr
  | Json.obj members => (decodeAnyMembers members).map (fun ms => Json.obj (mapMembers ms))

/-- The elements of an array under `decodeAny`. -/
def decodeAnyList : List Json → Option (List Json)
  | [] => some []
  | v :: rest =>
    match decodeAny v, decodeAnyList rest with
    | some v2, some rest2 => some (v2 :: rest2)
    | _, _ => none

/-- The members of an object under `decodeAny`, in the order of the text. -/
def decodeAnyMembers : List (GoString × Json) → Option (List (GoString × Json))
  | [] => some []
  | (k, v) :: rest =>
    match decodeAny v, decodeAnyMembers rest with
    | some v2, some rest2 => some ((coerceUTF8 k, v2) :: rest2)
    | _, _ => none

end

mutual

/-- A payload that `json.Unmarshal` hands back as it was encoded: its strings
and keys are valid UTF-8, its numbers are values of `float64`, and the keys of
each object are in strictly increasing order, as those of a map are
written. -/
def plainPayload : Json → Bool
  | Json.null => true
  | Json.bool _ => true
  | Json.num n => decide (float64OfInt n = some n)
  | Json.str s => validUTF8 s
  | Json.arr elems => plainList elems
  | Json.obj members => plainMembers members

/-- The elements of an array are all plain. -/
def plainList : List Json → Bool
  | [] => true
  | v :: rest => plainPayload v && plainList rest

/-- The members of an object are plain, every key below the keys after it. -/
def plainMembers : List (GoString × Json) → Bool
  | [] => true
  | (k, v) :: rest =>
    validUTF8 k && plainPayload v && rest.all (fun x => keyLess k x.1) && plainMembers rest

end

/-- Library function `json.Marshal(v)` for a value `v` that is a JSON tree already: it cannot
fail. -/
def jsonMarshal (v : Json) : Except GoString Json := Except.ok v

/-- Go function `MakeLLMJsonRPCRequest(userText, id)`. -/
def MakeLLMJsonRPCRequest (userText : GoString) (id : Int) : Except GoString JsonRPCRequest :=
  let messages : List Message :=
    [ { Role := lit "system", Content := lit "You are a risk assessment assistant." },
      { Role := lit "user", Content := userText } ]
  let rpcReq : JsonRPCRequest :=
    { JSONRPC := lit "2.0", Method := lit "llm/message",
      Params := LLMParams.toJson { Messages := messages }, ID := id }
  Except.ok rpcReq

/-- Go function `SendToLLM(apiURL, rpcReq)`. The second branch calls `SendToLLM` again, so
the definition takes the number of nested calls allowed: `none` means that
`fuel` calls did not reach a `return`. -/
def SendToLLM : Nat → GoString → JsonRPCRequest → Option (Except GoString JsonRPCResponse)
  | 0, _, _ => none
  | fuel + 1, apiURL, rpcReq =>
    if apiURL = lit "" then
      let mockResult :=
        Json.obj [(lit "text", Json.str (lit "This is a mock LLM response for testing.")),
          (lit "tools_used", Json.arr [])]
      match jsonMarshal mockResult with
      | Except.error err => some (Except.error err)
      | Except.ok resultBytes =>
        some (Except.ok
          { JSONRPC := lit "2.0", Result := some resultBytes, Error := none, ID := rpcReq.ID })
    else
      match SendToLLM fuel apiURL rpcReq with
      | none => none
      | some (Except.error err) => some (Except.error err)
      | some (Except.ok resp) => some (Except.ok resp)

/-! ## `main.go`: the message list of `chatHandler` -/

/-- The elements of a slice as `fmt` prints them: one space between two
elements. -/
def fmtElems : List GoString → GoString
  | [] => []
  | [x] => x
  | x :: y :: rest => x ++ lit " " ++ fmtElems (y :: rest)

/-- The verb `%v` of `fmt.Sprintf` on a `[]string`: the elements separated by
one space, in square brackets. -/
def fmtStrings (xs : List GoString) : GoString :=
  lit "[" ++ fmtElems xs ++ lit "]"

/-- The message list `chatHandler` builds from the request text and the
detected tools. -/
def chatMessages (request : GoString) (toolsToRun : List GoString) : List Message :=
  let messages : List Message :=
    [ { Role := lit "system", Content := lit "You are a risk assessment assistant." },
      { Role := lit "user", Content := request } ]
  if toolsToRun.length > 0 then
    let toolMsg : Message :=
      { Role := lit "system",
        Content := lit "Use the following tools for this request: " ++ fmtStrings toolsToRun }
    [toolMsg] ++ messages
  else messages

/-- The request envelope `chatHandler` passes to `SendToLLM`. -/
def chatRequest (mapLower : GoString → GoString) (request : GoString) : JsonRPCRequest :=
  let toolsToRun := DetermineTools mapLower request
  let messages := chatMessages request toolsToRun
  { JSONRPC := lit "2.0", Method := lit "llm/message",
    Params := LLMParams.toJson { Messages := messages }, ID := 1 }

/-! ## Traversal order: the reference the executor is compared with -/

mutual

/-- The tasks of a tree in pre-order: the task itself, then the pre-order of
each subtask's tree, the subtasks taken in declared order. -/
def preorder : Task → List Task
  | Task.mk taskID runID typ input output status subtasks createdAt runOutput =>
    Task.mk taskID runID typ input output status subtasks createdAt runOutput
      :: preorderAll subtasks

/-- The pre-order of a list of sibling trees, one tree after the other. -/
def preorderAll : List Task → List Task
  | [] => []
  | sub :: rest => preorder sub ++ preorderAll rest

end

/-- Whether the task's own work reads `task.RunOutput`: the two recognised
LLM prompts and the Tool prompt. -/
def usesRunOutput (task : Task) : Bool :=
  (task.TaskType = lit "LLM"
      ∧ (task.Input = lit "Analyze scenario" ∨ task.Input = lit "List all machinery"))
    ∨ (task.TaskType = lit "Tool" ∧ task.Input = lit "Categorize machinery")

/-- The value of `task.Output` once the task's own work is done. -/
def outputAfter (task : Task) : GoString :=
  if task.TaskType = lit "Tool" ∧ task.Input = lit "Categorize machinery" then
    lit "Categorized machinery"
  else if task.TaskType = lit "LLM" then lit "Fake LLM response for: " ++ task.Input
  else task.Output

/-- The events of one task that runs to its end: the two assignments to
`Status`, then the printed line. -/
def taskEvents (task : Task) : List Event :=
  [ Event.status task.ID task.Input (lit "running"),
    Event.status task.ID task.Input (lit "done"),
    Event.taskDone task.Input (outputAfter task) ]

/-- The inputs of the tasks a trace reports as done, in the order of the
trace. -/
def executionOrder : List Event → List GoString
  | [] => []
  | Event.taskDone input _ :: rest => input :: executionOrder rest
  | Event.status _ _ _ :: rest => executionOrder rest

/-- The values a trace reports as assigned to `task.Status`, in the order of
the trace. -/
def statusWrites : List Event → List GoString
  | [] => []
  | Event.status _ _ status :: rest => status :: statusWrites rest
  | Event.taskDone _ _ :: rest => statusWrites rest

/-! ## Case folding: the reference the tool matching is compared with -/

theorem selectLoop_eq (t : GoString) (ts : List Tool) (selected : List GoString) :
    selectLoop t ts selected
      = selected ++ (ts.filter (fun tool => matchesAny t tool.Keywords)).map Tool.Name := by
  induction ts generalizing selected with
  | nil => simp [selectLoop]
  | cons tool rest ih =>
    unfold selectLoop
    by_cases h : matchesAny t tool.Keywords = true
    · simp [h, ih]
    · simp [h, ih]

theorem determineTools_eq (mapLower : GoString → GoString) (text : GoString) :
    DetermineTools mapLower text
      = (tools.filter (fun tool => matchesAny (ToLower mapLower text) tool.Keywords)).map
          Tool.Name := by
  simp [DetermineTools, selectLoop_eq]

theorem tools_names :
    tools.map Tool.Name
      = [lit "analyze_image", lit "categorize_machinery", lit "summarize_report"] := by
  decide

theorem tools_keywords_nonempty : ∀ tool ∈ tools, ∀ kw ∈ tool.Keywords, kw ≠ [] := by
  decide

theorem continuation_byte_ne (x : UInt8) : x &&& 63 ||| 128 ≠ 63 := by
  intro h
  have h7 := congrArg (fun v : UInt8 => v.toBitVec.getLsbD 7) h
  rcases x with ⟨bv⟩
  change (bv &&& 63#8 ||| 128#8).getLsbD 7 = (63#8).getLsbD 7 at h7
  simp at h7

theorem utf8EncodeChar_ne_nil (c : Char) : String.utf8EncodeChar c ≠ [] := by
  unfold String.utf8EncodeChar
  simp only
  split_ifs <;> simp

theorem ascii_byte_eq_question (c : Char) (h : c.val ≤ 127) :
    c.val.toUInt8 = 63 ↔ c = '?' := by
  constructor
  · intro h1
    have hle : c.val.toNat ≤ 127 := h
    have h2 : c.val.toUInt8.toNat = 63 := by rw [h1]; rfl
    have h3 : c.val.toUInt8.toNat = c.val.toNat % 256 := rfl
    rw [h3] at h2
    have h4 : c.val.toNat = 63 := by omega
    apply Char.ext
    apply UInt32.ext
    exact h4
  · rintro rfl; rfl

theorem utf8EncodeChar_getLast (c : Char) :
    (String.utf8EncodeChar c).getLast? = some (byteOf '?') ↔ c = '?' := by
  have hq : byteOf '?' = 63 := rfl
  rw [hq]
  unfold String.utf8EncodeChar
  simp only
  split_ifs with h1 h2 h3
  · simp only [List.getLast?_singleton, Option.some.injEq]
    exact ascii_byte_eq_question c h1
  · have hne : c ≠ '?' := by
      rintro rfl
      exact h1 (by decide)
    simp [List.getLast?_cons_cons, continuation_byte_ne, hne]
  · have hne : c ≠ '?' := by
      rintro rfl
      exact h1 (by decide)
    simp [List.getLast?_cons_cons, continuation_byte_ne, hne]
  · have hne : c ≠ '?' := by
      rintro rfl
      exact h1 (by decide)
    simp [List.getLast?_cons_cons, continuation_byte_ne, hne]

theorem utf8_append (a b : List Char) : utf8 (a ++ b) = utf8 a ++ utf8 b := by
  simp [utf8]

theorem utf8_getLast (cs : List Char) :
    (utf8 cs).getLast? = some (byteOf '?') ↔ cs.getLast? = some '?' := by
  rcases List.eq_nil_or_concat cs with rfl | ⟨init, c, rfl⟩
  · simp [utf8]
  · have h1 : utf8 (init ++ [c]) = utf8 init ++ String.utf8EncodeChar c := by
      simp [utf8]
    rw [List.concat_eq_append, h1,
      List.getLast?_append_of_ne_nil _ (utf8EncodeChar_ne_nil c), utf8EncodeChar_getLast]
    simp

/-! ## Lemmas on case folding -/

/-- C1: for every text (and whatever the Unicode lower-casing does), the list
`DetermineTools` returns is a subsequence of the registry's name list
`[analyze_image, categorize_machinery, summarize_report]`: every returned name
is a registry name, no name occurs twice, and the registry order is kept. -/
theorem determineTools_sublist_registry (mapLower : GoString → GoString) (text : GoString) :
    List.Sublist (DetermineTools mapLower text)
        [lit "analyze_image", lit "categorize_machinery", lit "summarize_report"]
      ∧ (∀ name ∈ DetermineTools mapLower text, name ∈ tools.map Tool.Name)
      ∧ (DetermineTools mapLower text).Nodup := by
  have hsub : List.Sublist (DetermineTools mapLower text) (tools.map Tool.Name) := by
    rw [determineTools_eq]
    exact List.Sublist.map _ (List.filter_sublist _)
  have hnodup : (tools.map Tool.Name).Nodup := by decide
  refine ⟨?_, ?_, ?_⟩
  · rw [← tools_names]; exact hsub
  · intro name hname
    exact hsub.subset hname
  · exact hnodup.sublist hsub

theorem getElem?_last (text : GoString) : text[text.length - 1]? = text.getLast? := by
  rw [List.getLast?_eq_getElem?]

theorem getLast_of_ne_nil (text : GoString) (hne : text ≠ []) :
    ∃ c, text.getLast? = some c := by
  cases hl : text.getLast? with
  | none => exact absurd (List.getLast?_eq_none_iff.1 hl) hne
  | some c => exact ⟨c, rfl⟩

/-- What `DetectInputType` answers for a text with a last byte. -/
theorem detectInputType_of_last (text : GoString) (c : UInt8) (h : text.getLast? = some c) :
    DetectInputType text
      = some (if c = byteOf '?' then lit "question"
          else if 50 < text.length then lit "observation" else lit "request") := by
  have hne : text ≠ [] := by
    rintro rfl
    simp at h
  have hlen : text.length ≠ 0 := by simpa using hne
  simp only [DetectInputType, hlen, if_false, getElem?_last, h]
  split_ifs <;> rfl

theorem detectInputType_total (text : GoString) :
    ∃ inputType, DetectInputType text = some inputType := by
  by_cases hne : text = []
  · exact ⟨lit "unknown", by rw [hne]; rfl⟩
  · obtain ⟨c, hc⟩ := getLast_of_ne_nil text hne
    exact ⟨_, detectInputType_of_last text c hc⟩

/-- C3: `DetectInputType` applies its rules in this precedence, lengths being
byte lengths (`len`): the empty text is "unknown"; otherwise a text whose last
byte is `?` is "question", whatever its length; otherwise a text longer than
50 bytes is "observation"; otherwise the text is a "request". The result is
always one of the four categories, the index `len(text)-1` is in range for a
non-empty text (no panic), and for a text that is the UTF-8 encoding of a
sequence of characters the last byte is `?` exactly when the last character
is. -/
theorem detectInputType_rules (text : GoString) :
    (text = [] → DetectInputType text = some (lit "unknown"))
      ∧ (text ≠ [] → text.getLast? = some (byteOf '?')
          → DetectInputType text = some (lit "question"))
      ∧ (text ≠ [] → text.getLast? ≠ some (byteOf '?') → 50 < text.length
          → DetectInputType text = some (lit "observation"))
      ∧ (text ≠ [] → text.getLast? ≠ some (byteOf '?') → text.length ≤ 50
          → DetectInputType text = some (lit "request"))
      ∧ (DetectInputType text = some (lit "unknown")
          ∨ DetectInputType text = some (lit "question")
          ∨ DetectInputType text = some (lit "observation")
          ∨ DetectInputType text = some (lit "request"))
      ∧ (text ≠ [] → ∃ lastChar, text[text.length - 1]? = some lastChar)
      ∧ (∀ cs : List Char, text = utf8 cs
          → (text.getLast? = some (byteOf '?') ↔ cs.getLast? = some '?')) := by
  refine ⟨?_, ?_, ?_, ?_, ?_, ?_, ?_⟩
  · rintro rfl; rfl
  · intro _ hq
    rw [detectInputType_of_last text _ hq, if_pos rfl]
  · intro hne hq h50
    obtain ⟨c, hc⟩ := getLast_of_ne_nil text hne
    have hcq : c ≠ byteOf '?' := fun h => hq (by rw [hc, h])
    rw [detectInputType_of_last text c hc, if_neg hcq, if_pos h50]
  · intro hne hq h50
    obtain ⟨c, hc⟩ := getLast_of_ne_nil text hne
    have hcq : c ≠ byteOf '?' := fun h => hq (by rw [hc, h])
    rw [detectInputType_of_last text c hc, if_neg hcq, if_neg (by omega)]
  · by_cases hne : text = []
    · left; rw [hne]; rfl
    · obtain ⟨c, hc⟩ := getLast_of_ne_nil text hne
      rw [detectInputType_of_last text c hc]
      right
      split_ifs
      · left; rfl
      · right; left; rfl
      · right; right; rfl
  · intro hne
    rw [getElem?_last]
    exact getLast_of_ne_nil text hne
  · rintro cs rfl
    exact utf8_getLast cs

/-- C4, as the code has it: a non-empty text of at most 50 bytes (`len`, not
the number of characters) whose last byte is not `?` is a "request". -/
theorem detectInputType_request_of_short_bytes (text : GoString) (hne : text ≠ [])
    (hlen : text.length ≤ 50) (hlast : text.getLast? ≠ some (byteOf '?')) :
    DetectInputType text = some (lit "request") := by
  obtain ⟨c, hc⟩ := getLast_of_ne_nil text hne
  have hcq : c ≠ byteOf '?' := fun h => hlast (by rw [hc, h])
  rw [detectInputType_of_last text c hc, if_neg hcq, if_neg (by omega)]

/-- C4 at a concrete input: the text "Check the crane". -/
theorem detectInputType_request_of_short_bytes_witness :
    DetectInputType (lit "Check the crane") = some (lit "request") :=
  detectInputType_request_of_short_bytes (lit "Check the crane") (by decide) (by decide)
    (by decide)

/-- C4 as stated fails: seventeen characters `€` (three bytes each, 51 bytes)
are a non-empty string of at most 50 characters that does not end in `?`, and
`DetectInputType` answers "observation", not "request". -/
theorem detectInputType_short_unicode_not_request :
    List.replicate 17 '€' ≠ []
      ∧ (List.replicate 17 '€').length ≤ 50
      ∧ (List.replicate 17 '€').getLast? ≠ some '?'
      ∧ DetectInputType (utf8 (List.replicate 17 '€')) = some (lit "observation")
      ∧ DetectInputType (utf8 (List.replicate 17 '€')) ≠ some (lit "request") := by
  decide

/-! ## Lemmas on the executor -/

theorem categorizeLoop_eq (ms categorized : List GoString) :
    categorizeLoop ms categorized
      = categorized ++ ms.map (fun m => m ++ lit ": Heavy Equipment") := by
  induction ms generalizing categorized with
  | nil => simp [categorizeLoop]
  | cons m rest ih => simp [categorizeLoop, ih]

theorem load_some_iff (mem : Mem) (p : Option Nat) (r : RunOutput) :
    mem.load p = some r ↔ ∃ a, p = some a ∧ mem.heap[a]? = some r := by
  cases p with
  | none => simp [Mem.load]
  | some a => simp [Mem.load]

theorem store_heap_length (mem : Mem) (p : Option Nat) (r : RunOutput) :
    (mem.store p r).heap.length = mem.heap.length := by
  cases p with
  | none => rfl
  | some a => simp [Mem.store]

theorem store_trace (mem : Mem) (p : Option Nat) (r : RunOutput) :
    (mem.store p r).trace = mem.trace := by
  cases p with
  | none => rfl
  | some a => rfl

theorem llmStep_heap_length (typ input output : GoString) (ro : Option Nat) (mem : Mem) :
    (llmStep typ input output ro mem).2.heap.length = mem.heap.length := by
  unfold llmStep
  split_ifs
  · cases mem.load ro <;> simp [store_heap_length]
  · cases mem.load ro <;> simp [store_heap_length]
  · rfl
  · rfl

theorem llmStep_trace (typ input output : GoString) (ro : Option Nat) (mem : Mem) :
    (llmStep typ input output ro mem).2.trace = mem.trace := by
  unfold llmStep
  split_ifs
  · cases mem.load ro <;> simp [store_trace]
  · cases mem.load ro <;> simp [store_trace]
  · rfl
  · rfl

theorem toolStep_heap_length (typ input output : GoString) (ro : Option Nat) (mem : Mem) :
    (toolStep typ input output ro mem).2.heap.length = mem.heap.length := by
  unfold toolStep
  split_ifs
  · cases mem.load ro <;> simp [store_heap_length]
  · rfl

theorem toolStep_trace (typ input output : GoString) (ro : Option Nat) (mem : Mem) :
    (toolStep typ input output ro mem).2.trace = mem.trace := by
  unfold toolStep
  split_ifs
  · cases mem.load ro <;> simp [store_trace]
  · rfl

theorem llmStep_fst (typ input output : GoString) (ro : Option Nat) (mem : Mem) :
    (llmStep typ input output ro mem).1 = none
      ∨ (llmStep typ input output ro mem).1
          = some (if typ = lit "LLM" then lit "Fake LLM response for: " ++ input else output) := by
  unfold llmStep
  split_ifs
  · cases mem.load ro <;> simp
  · cases mem.load ro <;> simp
  · simp
  · simp

theorem toolStep_fst (typ input output : GoString) (ro : Option Nat) (mem : Mem) :
    (toolStep typ input output ro mem).1 = none
      ∨ (toolStep typ input output ro mem).1
          = some (if typ = lit "Tool" ∧ input = lit "Categorize machinery"
              then lit "Categorized machinery" else output) := by
  unfold toolStep
  split_ifs
  · cases mem.load ro <;> simp
  · simp

theorem llmStep_ok (typ input output : GoString) (ro : Option Nat) (mem : Mem)
    (h : typ = lit "LLM" → input = lit "Analyze scenario" ∨ input = lit "List all machinery"
      → ∃ r, mem.load ro = some r) :
    (llmStep typ input output ro mem).1 ≠ none := by
  unfold llmStep
  split_ifs with h1 h2 h3
  · obtain ⟨r, hr⟩ := h h1 (Or.inl h2)
    simp [hr]
  · obtain ⟨r, hr⟩ := h h1 (Or.inr h3)
    simp [hr]
  · simp
  · simp

theorem toolStep_ok (typ input output : GoString) (ro : Option Nat) (mem : Mem)
    (h : typ = lit "Tool" → input = lit "Categorize machinery" → ∃ r, mem.load ro = some r) :
    (toolStep typ input output ro mem).1 ≠ none := by
  unfold toolStep
  split_ifs with h1
  · obtain ⟨r, hr⟩ := h h1.1 h1.2
    simp [hr]
  · simp

theorem ownStep_of_llm_none (taskID typ input output : GoString) (ro : Option Nat)
    (mem m1 : Mem)
    (hl : llmStep typ input output ro (mem.emit (Event.status taskID input (lit "running")))
      = (none, m1)) :
    ownStep taskID typ input output ro mem = (none, m1) := by
  simp only [ownStep, hl]

theorem ownStep_of_tool_none (taskID typ input output o1 : GoString) (ro : Option Nat)
    (mem m1 m2 : Mem)
    (hl : llmStep typ input output ro (mem.emit (Event.status taskID input (lit "running")))
      = (some o1, m1))
    (ht : toolStep typ input o1 ro m1 = (none, m2)) :
    ownStep taskID typ input output ro mem = (none, m2) := by
  simp only [ownStep, hl, ht]

theorem ownStep_of_tool_some (taskID typ input output o1 o2 : GoString) (ro : Option Nat)
    (mem m1 m2 : Mem)
    (hl : llmStep typ input output ro (mem.emit (Event.status taskID input (lit "running")))
      = (some o1, m1))
    (ht : toolStep typ input o1 ro m1 = (some o2, m2)) :
    ownStep taskID typ input output ro mem
      = (some o2,
          (m2.emit (Event.status taskID input (lit "done"))).emit (Event.taskDone input o2)) := by
  simp only [ownStep, hl, ht]

theorem ownStep_heap_length (taskID typ input output : GoString) (ro : Option Nat) (mem : Mem) :
    (ownStep taskID typ input output ro mem).2.heap.length = mem.heap.length := by
  have h1 := llmStep_heap_length typ input output ro
    (mem.emit (Event.status taskID input (lit "running")))
  rcases hl : llmStep typ input output ro (mem.emit (Event.status taskID input (lit "running")))
    with ⟨_ | o1, m1⟩
  · rw [hl] at h1
    rw [ownStep_of_llm_none _ _ _ _ _ _ _ hl]
    simpa [Mem.emit] using h1
  · rw [hl] at h1
    have h2 := toolStep_heap_length typ input o1 ro m1
    rcases ht : toolStep typ input o1 ro m1 with ⟨_ | o2, m2⟩
    · rw [ht] at h2
      rw [ownStep_of_tool_none _ _ _ _ _ _ _ _ _ hl ht]
      simp only [Mem.emit] at h1 h2 ⊢
      omega
    · rw [ht] at h2
      rw [ownStep_of_tool_some _ _ _ _ _ _ _ _ _ _ hl ht]
      simp only [Mem.emit] at h1 h2 ⊢
      omega

/-- The own work of a task either panics right after `Status = "running"`, or
leaves the events of `taskEvents` and the output of `outputAfter`. -/
theorem ownStep_cases (taskID runID typ input output status : GoString) (subtasks : List Task)
    (createdAt : Int) (ro : Option Nat) (mem : Mem) :
    ((ownStep taskID typ input output ro mem).1 = none
        ∧ (ownStep taskID typ input output ro mem).2.trace
            = mem.trace ++ [Event.status taskID input (lit "running")])
      ∨ ((ownStep taskID typ input output ro mem).1
            = some (outputAfter
                (Task.mk taskID runID typ input output status subtasks createdAt ro))
          ∧ (ownStep taskID typ input output ro mem).2.trace
              = mem.trace ++ taskEvents
                  (Task.mk taskID runID typ input output status subtasks createdAt ro)) := by
  have h1 := llmStep_trace typ input output ro
    (mem.emit (Event.status taskID input (lit "running")))
  have h1' := llmStep_fst typ input output ro
    (mem.emit (Event.status taskID input (lit "running")))
  rcases hl : llmStep typ input output ro (mem.emit (Event.status taskID input (lit "running")))
    with ⟨_ | o1, m1⟩
  · left
    rw [hl] at h1
    rw [ownStep_of_llm_none _ _ _ _ _ _ _ hl]
    exact ⟨rfl, by simpa [Mem.emit] using h1⟩
  · rw [hl] at h1 h1'
    have h2 := toolStep_trace typ input o1 ro m1
    have h2' := toolStep_fst typ input o1 ro m1
    rcases ht : toolStep typ input o1 ro m1 with ⟨_ | o2, m2⟩
    · left
      rw [ht] at h2
      rw [ownStep_of_tool_none _ _ _ _ _ _ _ _ _ hl ht]
      refine ⟨rfl, ?_⟩
      simp only [Mem.emit] at h1 h2 ⊢
      rw [h2, h1]
    · right
      rw [ht] at h2 h2'
      rw [ownStep_of_tool_some _ _ _ _ _ _ _ _ _ _ hl ht]
      simp only [Mem.emit] at h1 h2 ⊢
      simp only [reduceCtorEq, false_or, Option.some.injEq] at h1' h2'
      have ho : o2 = outputAfter
          (Task.mk taskID runID typ input output status subtasks createdAt ro) := by
        rw [h2', h1']
        simp only [outputAfter, Task.TaskType, Task.Input, Task.Output]
      refine ⟨by rw [ho], ?_⟩
      rw [h2, h1]
      simp [taskEvents, Task.ID, Task.Input, ← ho]

theorem load_of_lt (mem : Mem) (a : Nat) (h : a < mem.heap.length) :
    ∃ r, mem.load (some a) = some r :=
  ⟨mem.heap[a], List.getElem?_eq_getElem h⟩

theorem ownStep_ok (taskID runID typ input output status : GoString) (subtasks : List Task)
    (createdAt : Int) (ro : Option Nat) (mem : Mem)
    (h : usesRunOutput (Task.mk taskID runID typ input output status subtasks createdAt ro) = true
      → ∃ a, ro = some a ∧ a < mem.heap.length) :
    (ownStep taskID typ input output ro mem).1 ≠ none := by
  have huse : ∀ m : Mem, m.heap.length = mem.heap.length →
      ((typ = lit "LLM" ∧ (input = lit "Analyze scenario" ∨ input = lit "List all machinery"))
        ∨ (typ = lit "Tool" ∧ input = lit "Categorize machinery")) →
      ∃ r, m.load ro = some r := by
    intro m hm hu
    have hu' : usesRunOutput
        (Task.mk taskID runID typ input output status subtasks createdAt ro) = true := by
      simpa [usesRunOutput, Task.TaskType, Task.Input] using hu
    obtain ⟨a, rfl, ha⟩ := h hu'
    exact load_of_lt m a (by omega)
  have h1 := llmStep_ok typ input output ro
    (mem.emit (Event.status taskID input (lit "running")))
    (fun ht hi => huse _ rfl (Or.inl ⟨ht, hi⟩))
  have hlen := llmStep_heap_length typ input output ro
    (mem.emit (Event.status taskID input (lit "running")))
  rcases hl : llmStep typ input output ro (mem.emit (Event.status taskID input (lit "running")))
    with ⟨_ | o1, m1⟩
  · rw [hl] at h1; exact absurd rfl h1
  · rw [hl] at hlen
    have h2 := toolStep_ok typ input o1 ro m1
      (fun ht hi => huse m1 (by simpa [Mem.emit] using hlen) (Or.inr ⟨ht, hi⟩))
    rcases ht : toolStep typ input o1 ro m1 with ⟨_ | o2, m2⟩
    · rw [ht] at h2; exact absurd rfl h2
    · rw [ownStep_of_tool_some _ _ _ _ _ _ _ _ _ _ hl ht]
      simp

theorem executeTask_of_own_none (taskID runID typ input output status : GoString)
    (subtasks : List Task) (createdAt : Int) (ro : Option Nat) (mem m1 : Mem)
    (ho : ownStep taskID typ input output ro mem = (none, m1)) :
    ExecuteTask (Task.mk taskID runID typ input output status subtasks createdAt ro) mem
      = (none, m1) := by
  simp only [ExecuteTask, ho]

theorem executeTask_of_subtasks_none (taskID runID typ input output status o1 : GoString)
    (subtasks : List Task) (createdAt : Int) (ro : Option Nat) (mem m1 m2 : Mem)
    (ho : ownStep taskID typ input output ro mem = (some o1, m1))
    (hs : ExecuteSubtasks subtasks m1 = (none, m2)) :
    ExecuteTask (Task.mk taskID runID typ input output status subtasks createdAt ro) mem
      = (none, m2) := by
  simp only [ExecuteTask, ho, hs]

theorem executeTask_of_subtasks_some (taskID runID typ input output status o1 : GoString)
    (subtasks subtasks2 : List Task) (createdAt : Int) (ro : Option Nat) (mem m1 m2 : Mem)
    (ho : ownStep taskID typ input output ro mem = (some o1, m1))
    (hs : ExecuteSubtasks subtasks m1 = (some subtasks2, m2)) :
    ExecuteTask (Task.mk taskID runID typ input output status subtasks createdAt ro) mem
      = (some (Task.mk taskID runID typ input o1 (lit "done") subtasks2 createdAt ro), m2) := by
  simp only [ExecuteTask, ho, hs]

theorem executeSubtasks_of_head_none (sub : Task) (rest : List Task) (mem m1 : Mem)
    (hh : ExecuteTask sub mem = (none, m1)) :
    ExecuteSubtasks (sub :: rest) mem = (none, m1) := by
  simp only [ExecuteSubtasks, hh]

theorem executeSubtasks_of_rest_none (sub sub2 : Task) (rest : List Task) (mem m1 m2 : Mem)
    (hh : ExecuteTask sub mem = (some sub2, m1))
    (hr : ExecuteSubtasks rest m1 = (none, m2)) :
    ExecuteSubtasks (sub :: rest) mem = (none, m2) := by
  simp only [ExecuteSubtasks, hh, hr]

theorem executeSubtasks_of_rest_some (sub sub2 : Task) (rest rest2 : List Task)
    (mem m1 m2 : Mem)
    (hh : ExecuteTask sub mem = (some sub2, m1))
    (hr : ExecuteSubtasks rest m1 = (some rest2, m2)) :
    ExecuteSubtasks (sub :: rest) mem = (some (sub2 :: rest2), m2) := by
  simp only [ExecuteSubtasks, hh, hr]

mutual

theorem executeTask_heap_length : ∀ (task : Task) (mem : Mem),
    (ExecuteTask task mem).2.heap.length = mem.heap.length
  | Task.mk taskID runID typ input output status subtasks createdAt ro, mem => by
    have h1 := ownStep_heap_length taskID typ input output ro mem
    rcases ho : ownStep taskID typ input output ro mem with ⟨_ | o1, m1⟩
    · rw [executeTask_of_own_none _ _ _ _ _ _ _ _ _ _ _ ho]
      rw [ho] at h1; exact h1
    · rw [ho] at h1
      have h2 := executeSubtasks_heap_length subtasks m1
      rcases hs : ExecuteSubtasks subtasks m1 with ⟨_ | s2, m2⟩
      · rw [executeTask_of_subtasks_none _ _ _ _ _ _ _ _ _ _ _ _ _ ho hs]
        rw [hs] at h2
        exact h2.trans h1
      · rw [executeTask_of_subtasks_some _ _ _ _ _ _ _ _ _ _ _ _ _ _ ho hs]
        rw [hs] at h2
        exact h2.trans h1

theorem executeSubtasks_heap_length : ∀ (subtasks : List Task) (mem : Mem),
    (ExecuteSubtasks subtasks mem).2.heap.length = mem.heap.length
  | [], mem => by simp [ExecuteSubtasks]
  | sub :: rest, mem => by
    have h1 := executeTask_heap_length sub mem
    rcases hh : ExecuteTask sub mem with ⟨_ | s2, m1⟩
    · rw [executeSubtasks_of_head_none _ _ _ _ hh]
      rw [hh] at h1; exact h1
    · rw [hh] at h1
      have h2 := executeSubtasks_heap_length rest m1
      rcases hr : ExecuteSubtasks rest m1 with ⟨_ | r2, m2⟩
      · rw [executeSubtasks_of_rest_none _ _ _ _ _ _ hh hr]
        rw [hr] at h2
        exact h2.trans h1
      · rw [executeSubtasks_of_rest_some _ _ _ _ _ _ _ hh hr]
        rw [hr] at h2
        exact h2.trans h1

end

theorem executionOrder_append (a b : List Event) :
    executionOrder (a ++ b) = executionOrder a ++ executionOrder b := by
  induction a with
  | nil => rfl
  | cons e rest ih =>
    cases e with
    | status taskID input status => simpa [executionOrder] using ih
    | taskDone input output => simpa [executionOrder] using ih

theorem executionOrder_taskEvents (task : Task) :
    executionOrder (taskEvents task) = [task.Input] := rfl

theorem executionOrder_flatMap (tasks : List Task) :
    executionOrder (tasks.flatMap taskEvents) = tasks.map Task.Input := by
  induction tasks with
  | nil => rfl
  | cons t rest ih =>
    rw [List.flatMap_cons, executionOrder_append, ih, executionOrder_taskEvents]
    rfl

theorem preorder_mk (taskID runID typ input output status : GoString) (subtasks : List Task)
    (createdAt : Int) (ro : Option Nat) :
    preorder (Task.mk taskID runID typ input output status subtasks createdAt ro)
      = Task.mk taskID runID typ input output status subtasks createdAt ro
          :: preorderAll subtasks := by
  simp [preorder]

theorem preorderAll_cons (sub : Task) (rest : List Task) :
    preorderAll (sub :: rest) = preorder sub ++ preorderAll rest := by
  simp [preorderAll]

mutual

theorem executeTask_trace_of_done : ∀ (task : Task) (mem : Mem),
    (ExecuteTask task mem).1 ≠ none →
      (ExecuteTask task mem).2.trace = mem.trace ++ (preorder task).flatMap taskEvents
  | Task.mk taskID runID typ input output status subtasks createdAt ro, mem => by
    intro hdone
    rcases ho : ownStep taskID typ input output ro mem with ⟨_ | o1, m1⟩
    · rw [executeTask_of_own_none _ _ _ _ _ _ _ _ _ _ _ ho] at hdone
      exact absurd rfl hdone
    · have hc := ownStep_cases taskID runID typ input output status subtasks createdAt ro mem
      rw [ho] at hc
      rcases hc with ⟨hn, _⟩ | ⟨_, htr⟩
      · simp at hn
      · have ih := executeSubtasks_trace_of_done subtasks m1
        rcases hs : ExecuteSubtasks subtasks m1 with ⟨_ | s2, m2⟩
        · rw [executeTask_of_subtasks_none _ _ _ _ _ _ _ _ _ _ _ _ _ ho hs] at hdone
          exact absurd rfl hdone
        · rw [executeTask_of_subtasks_some _ _ _ _ _ _ _ _ _ _ _ _ _ _ ho hs]
          rw [hs] at ih
          have ih' := ih (by simp)
          simp only at ih' htr ⊢
          rw [ih', htr, preorder_mk, List.flatMap_cons, List.append_assoc]

theorem executeSubtasks_trace_of_done : ∀ (subtasks : List Task) (mem : Mem),
    (ExecuteSubtasks subtasks mem).1 ≠ none →
      (ExecuteSubtasks subtasks mem).2.trace
        = mem.trace ++ (preorderAll subtasks).flatMap taskEvents
  | [], mem => by simp [ExecuteSubtasks, preorderAll]
  | sub :: rest, mem => by
    intro hdone
    have ih1 := executeTask_trace_of_done sub mem
    rcases hh : ExecuteTask sub mem with ⟨_ | s2, m1⟩
    · rw [executeSubtasks_of_head_none _ _ _ _ hh] at hdone
      exact absurd rfl hdone
    · rw [hh] at ih1
      have ih1' := ih1 (by simp)
      have ih2 := executeSubtasks_trace_of_done rest m1
      rcases hr : ExecuteSubtasks rest m1 with ⟨_ | r2, m2⟩
      · rw [executeSubtasks_of_rest_none _ _ _ _ _ _ hh hr] at hdone
        exact absurd rfl hdone
      · rw [executeSubtasks_of_rest_some _ _ _ _ _ _ _ hh hr]
        rw [hr] at ih2
        have ih2' := ih2 (by simp)
        simp only at ih1' ih2' ⊢
        rw [ih2', ih1', preorderAll_cons, List.flatMap_append, List.append_assoc]

end

mutual

theorem executeTask_order_prefix : ∀ (task : Task) (mem : Mem),
    ∃ done : List GoString, done <+: (preorder task).map Task.Input
      ∧ executionOrder (ExecuteTask task mem).2.trace = executionOrder mem.trace ++ done
  | Task.mk taskID runID typ input output status subtasks createdAt ro, mem => by
    have hc := ownStep_cases taskID runID typ input output status subtasks createdAt ro mem
    rcases ho : ownStep taskID typ input output ro mem with ⟨_ | o1, m1⟩
    · rw [executeTask_of_own_none _ _ _ _ _ _ _ _ _ _ _ ho]
      rw [ho] at hc
      rcases hc with ⟨_, htr⟩ | ⟨hn, _⟩
      · refine ⟨[], List.nil_prefix, ?_⟩
        simp only at htr ⊢
        rw [htr, executionOrder_append]
        rfl
      · simp at hn
    · rw [ho] at hc
      rcases hc with ⟨hn, _⟩ | ⟨_, htr⟩
      · simp at hn
      · obtain ⟨done, hpre, hord⟩ := executeSubtasks_order_prefix subtasks m1
        refine ⟨input :: done, ?_, ?_⟩
        · rw [preorder_mk, List.map_cons]
          exact List.cons_prefix_cons.2 ⟨rfl, hpre⟩
        · have hres : (ExecuteTask
              (Task.mk taskID runID typ input output status subtasks createdAt ro) mem).2
              = (ExecuteSubtasks subtasks m1).2 := by
            rcases hs : ExecuteSubtasks subtasks m1 with ⟨_ | s2, m2⟩
            · rw [executeTask_of_subtasks_none _ _ _ _ _ _ _ _ _ _ _ _ _ ho hs]
            · rw [executeTask_of_subtasks_some _ _ _ _ _ _ _ _ _ _ _ _ _ _ ho hs]
          simp only at htr
          rw [hres, hord, htr, executionOrder_append, executionOrder_taskEvents]
          simp [Task.Input]

theorem executeSubtasks_order_prefix : ∀ (subtasks : List Task) (mem : Mem),
    ∃ done : List GoString, done <+: (preorderAll subtasks).map Task.Input
      ∧ executionOrder (ExecuteSubtasks subtasks mem).2.trace
          = executionOrder mem.trace ++ done
  | [], mem => ⟨[], List.nil_prefix, by simp [ExecuteSubtasks]⟩
  | sub :: rest, mem => by
    obtain ⟨done1, hpre1, hord1⟩ := executeTask_order_prefix sub mem
    have hfull := executeTask_trace_of_done sub mem
    rcases hh : ExecuteTask sub mem with ⟨_ | s2, m1⟩
    · rw [executeSubtasks_of_head_none _ _ _ _ hh]
      rw [hh] at hord1
      refine ⟨done1, ?_, hord1⟩
      rw [preorderAll_cons, List.map_append]
      exact hpre1.trans (List.prefix_append _ _)
    · rw [hh] at hfull
      have hfull' := hfull (by simp)
      obtain ⟨done2, hpre2, hord2⟩ := executeSubtasks_order_prefix rest m1
      refine ⟨(preorder sub).map Task.Input ++ done2, ?_, ?_⟩
      · rw [preorderAll_cons, List.map_append]
        exact (List.prefix_append_right_inj _).2 hpre2
      · have hres : (ExecuteSubtasks (sub :: rest) mem).2 = (ExecuteSubtasks rest m1).2 := by
          rcases hr : ExecuteSubtasks rest m1 with ⟨_ | r2, m2⟩
          · rw [executeSubtasks_of_rest_none _ _ _ _ _ _ hh hr]
          · rw [executeSubtasks_of_rest_some _ _ _ _ _ _ _ hh hr]
        simp only at hfull'
        rw [hres, hord2, hfull', executionOrder_append, executionOrder_flatMap,
          List.append_assoc]

end

mutual

theorem executeTask_ok : ∀ (task : Task) (mem : Mem),
    (∀ n ∈ preorder task, usesRunOutput n = true
        → ∃ a, n.RunOutput = some a ∧ a < mem.heap.length) →
      (ExecuteTask task mem).1 ≠ none
  | Task.mk taskID runID typ input output status subtasks createdAt ro, mem => by
    intro hv
    rw [preorder_mk] at hv
    have h1 := ownStep_ok taskID runID typ input output status subtasks createdAt ro mem
      (fun hu => by
        have := hv _ (List.mem_cons_self _ _) hu
        simpa [Task.RunOutput] using this)
    have hlen := ownStep_heap_length taskID typ input output ro mem
    rcases ho : ownStep taskID typ input output ro mem with ⟨_ | o1, m1⟩
    · rw [ho] at h1; exact absurd rfl h1
    · rw [ho] at hlen
      have h2 := executeSubtasks_ok subtasks m1 (fun n hn hu => by
        obtain ⟨a, ha, hlt⟩ := hv n (List.mem_cons_of_mem _ hn) hu
        exact ⟨a, ha, by simp only at hlen; omega⟩)
      rcases hs : ExecuteSubtasks subtasks m1 with ⟨_ | s2, m2⟩
      · rw [hs] at h2; exact absurd rfl h2
      · rw [executeTask_of_subtasks_some _ _ _ _ _ _ _ _ _ _ _ _ _ _ ho hs]
        simp

theorem executeSubtasks_ok : ∀ (subtasks : List Task) (mem : Mem),
    (∀ n ∈ preorderAll subtasks, usesRunOutput n = true
        → ∃ a, n.RunOutput = some a ∧ a < mem.heap.length) →
      (ExecuteSubtasks subtasks mem).1 ≠ none
  | [], mem => by simp [ExecuteSubtasks]
  | sub :: rest, mem => by
    intro hv
    rw [preorderAll_cons] at hv
    have h1 := executeTask_ok sub mem (fun n hn hu => hv n (List.mem_append_left _ hn) hu)
    have hlen := executeTask_heap_length sub mem
    rcases hh : ExecuteTask sub mem with ⟨_ | s2, m1⟩
    · rw [hh] at h1; exact absurd rfl h1
    · rw [hh] at hlen
      have h2 := executeSubtasks_ok rest m1 (fun n hn hu => by
        obtain ⟨a, ha, hlt⟩ := hv n (List.mem_append_right _ hn) hu
        exact ⟨a, ha, by simp only at hlen; omega⟩)
      rcases hr : ExecuteSubtasks rest m1 with ⟨_ | r2, m2⟩
      · rw [hr] at h2; exact absurd rfl h2
      · rw [executeSubtasks_of_rest_some _ _ _ _ _ _ _ hh hr]
        simp

end

/-! ## The three recognised prompts, step by step -/

theorem ownStep_analyze (taskID output : GoString) (a : Nat) (mem : Mem) (r : RunOutput)
    (h : mem.heap[a]? = some r) :
    ownStep taskID (lit "LLM") (lit "Analyze scenario") output (some a) mem
      = (some (lit "Fake LLM response for: Analyze scenario"),
          { heap := mem.heap.set a
              { r with Answer := lit "Fake LLM response for: Analyze scenario" },
            trace := mem.trace ++ [Event.status taskID (lit "Analyze scenario") (lit "running"),
              Event.status taskID (lit "Analyze scenario") (lit "done"),
              Event.taskDone (lit "Analyze scenario")
                (lit "Fake LLM response for: Analyze scenario")] }) := by
  have hne : lit "LLM" ≠ lit "Tool" := by decide
  have happ : lit "Fake LLM response for: " ++ lit "Analyze scenario"
      = lit "Fake LLM response for: Analyze scenario" := by decide
  have hl : llmStep (lit "LLM") (lit "Analyze scenario") output (some a)
      (mem.emit (Event.status taskID (lit "Analyze scenario") (lit "running")))
      = (some (lit "Fake LLM response for: Analyze scenario"),
          (mem.emit (Event.status taskID (lit "Analyze scenario") (lit "running"))).store
            (some a) { r with Answer := lit "Fake LLM response for: Analyze scenario" }) := by
    simp only [llmStep, if_true, Mem.load, Mem.emit, h, happ]
  have ht : ∀ m : Mem, toolStep (lit "LLM") (lit "Analyze scenario")
      (lit "Fake LLM response for: Analyze scenario") (some a) m
      = (some (lit "Fake LLM response for: Analyze scenario"), m) := by
    intro m
    simp only [toolStep, hne, false_and, if_false]
  rw [ownStep_of_tool_some _ _ _ _ _ _ _ _ _ _ hl (ht _)]
  simp [Mem.emit, Mem.store]

theorem ownStep_list (taskID output : GoString) (a : Nat) (mem : Mem) (r : RunOutput)
    (h : mem.heap[a]? = some r) :
    ownStep taskID (lit "LLM") (lit "List all machinery") output (some a) mem
      = (some (lit "Fake LLM response for: List all machinery"),
          { heap := mem.heap.set a
              { r with Machinery :=
                  r.Machinery ++ [lit "Excavator", lit "Crane", lit "Bulldozer"] },
            trace := mem.trace ++ [Event.status taskID (lit "List all machinery") (lit "running"),
              Event.status taskID (lit "List all machinery") (lit "done"),
              Event.taskDone (lit "List all machinery")
                (lit "Fake LLM response for: List all machinery")] }) := by
  have hne : lit "LLM" ≠ lit "Tool" := by decide
  have hne2 : lit "List all machinery" ≠ lit "Analyze scenario" := by decide
  have happ : lit "Fake LLM response for: " ++ lit "List all machinery"
      = lit "Fake LLM response for: List all machinery" := by decide
  have hl : llmStep (lit "LLM") (lit "List all machinery") output (some a)
      (mem.emit (Event.status taskID (lit "List all machinery") (lit "running")))
      = (some (lit "Fake LLM response for: List all machinery"),
          (mem.emit (Event.status taskID (lit "List all machinery") (lit "running"))).store
            (some a)
            { r with Machinery :=
                r.Machinery ++ [lit "Excavator", lit "Crane", lit "Bulldozer"] }) := by
    simp only [llmStep, if_true, hne2, if_false, Mem.load, Mem.emit, h, happ]
  have ht : ∀ m : Mem, toolStep (lit "LLM") (lit "List all machinery")
      (lit "Fake LLM response for: List all machinery") (some a) m
      = (some (lit "Fake LLM response for: List all machinery"), m) := by
    intro m
    simp only [toolStep, hne, false_and, if_false]
  rw [ownStep_of_tool_some _ _ _ _ _ _ _ _ _ _ hl (ht _)]
  simp [Mem.emit, Mem.store]

theorem ownStep_categorize (taskID output : GoString) (a : Nat) (mem : Mem) (r : RunOutput)
    (h : mem.heap[a]? = some r) :
    ownStep taskID (lit "Tool") (lit "Categorize machinery") output (some a) mem
      = (some (lit "Categorized machinery"),
          { heap := mem.heap.set a
              { r with Machinery := r.Machinery.map (fun m => m ++ lit ": Heavy Equipment") },
            trace := mem.trace
              ++ [Event.status taskID (lit "Categorize machinery") (lit "running"),
                Event.status taskID (lit "Categorize machinery") (lit "done"),
                Event.taskDone (lit "Categorize machinery") (lit "Categorized machinery")] }) := by
  have hne : lit "Tool" ≠ lit "LLM" := by decide
  have hl : llmStep (lit "Tool") (lit "Categorize machinery") output (some a)
      (mem.emit (Event.status taskID (lit "Categorize machinery") (lit "running")))
      = (some output,
          mem.emit (Event.status taskID (lit "Categorize machinery") (lit "running"))) := by
    simp only [llmStep, hne, if_false]
  have ht : toolStep (lit "Tool") (lit "Categorize machinery") output (some a)
      (mem.emit (Event.status taskID (lit "Categorize machinery") (lit "running")))
      = (some (lit "Categorized machinery"),
          (mem.emit (Event.status taskID (lit "Categorize machinery") (lit "running"))).store
            (some a)
            { r with Machinery := r.Machinery.map (fun m => m ++ lit ": Heavy Equipment") }) := by
    simp only [toolStep, and_self, if_true, Mem.load, Mem.emit, h, categorizeLoop_eq,
      List.nil_append]
  rw [ownStep_of_tool_some _ _ _ _ _ _ _ _ _ _ hl ht]
  simp [Mem.emit, Mem.store]

theorem executeSubtasks_nil (mem : Mem) : ExecuteSubtasks [] mem = (some [], mem) := by
  simp [ExecuteSubtasks]

theorem set_concat_length {α : Type} (l : List α) (x y : α) :
    (l ++ [x]).set l.length y = l ++ [y] := by
  induction l with
  | nil => rfl
  | cons b l ih => simp [ih]

theorem getElem?_concat_of_lt {α : Type} (l : List α) (x : α) (a : Nat) (h : a < l.length) :
    (l ++ [x])[a]? = l[a]? := by
  rw [List.getElem?_append_left h]

/-! ## The run built by `BuildRunWithOutput` -/

theorem executeTask_leaf (taskID runID typ input output status o1 : GoString)
    (createdAt : Int) (ro : Option Nat) (mem m1 : Mem)
    (ho : ownStep taskID typ input output ro mem = (some o1, m1)) :
    ExecuteTask (Task.mk taskID runID typ input output status [] createdAt ro) mem
      = (some (Task.mk taskID runID typ input o1 (lit "done") [] createdAt ro), m1) :=
  executeTask_of_subtasks_some _ _ _ _ _ _ _ _ _ _ _ _ _ _ ho (executeSubtasks_nil m1)

theorem ownStep_analyze_last (taskID output : GoString) (heap : List RunOutput)
    (trace : List Event) (r : RunOutput) :
    ownStep taskID (lit "LLM") (lit "Analyze scenario") output (some heap.length)
        { heap := heap ++ [r], trace := trace }
      = (some (lit "Fake LLM response for: Analyze scenario"),
          { heap := heap ++ [{ r with Answer := lit "Fake LLM response for: Analyze scenario" }],
            trace := trace ++ [Event.status taskID (lit "Analyze scenario") (lit "running"),
              Event.status taskID (lit "Analyze scenario") (lit "done"),
              Event.taskDone (lit "Analyze scenario")
                (lit "Fake LLM response for: Analyze scenario")] }) := by
  rw [ownStep_analyze taskID output heap.length _ r (by simp)]
  simp only [set_concat_length]

theorem ownStep_list_last (taskID output : GoString) (heap : List RunOutput)
    (trace : List Event) (r : RunOutput) :
    ownStep taskID (lit "LLM") (lit "List all machinery") output (some heap.length)
        { heap := heap ++ [r], trace := trace }
      = (some (lit "Fake LLM response for: List all machinery"),
          { heap := heap ++
              [{ r with Machinery := r.Machinery ++ [lit "Excavator", lit "Crane", lit "Bulldozer"] }],
            trace := trace ++ [Event.status taskID (lit "List all machinery") (lit "running"),
              Event.status taskID (lit "List all machinery") (lit "done"),
              Event.taskDone (lit "List all machinery")
                (lit "Fake LLM response for: List all machinery")] }) := by
  rw [ownStep_list taskID output heap.length _ r (by simp)]
  simp only [set_concat_length]

theorem ownStep_categorize_last (taskID output : GoString) (heap : List RunOutput)
    (trace : List Event) (r : RunOutput) :
    ownStep taskID (lit "Tool") (lit "Categorize machinery") output (some heap.length)
        { heap := heap ++ [r], trace := trace }
      = (some (lit "Categorized machinery"),
          { heap := heap ++
              [{ r with Machinery := r.Machinery.map (fun m => m ++ lit ": Heavy Equipment") }],
            trace := trace ++ [Event.status taskID (lit "Categorize machinery") (lit "running"),
              Event.status taskID (lit "Categorize machinery") (lit "done"),
              Event.taskDone (lit "Categorize machinery") (lit "Categorized machinery")] }) := by
  rw [ownStep_categorize taskID output heap.length _ r (by simp)]
  simp only [set_concat_length]

/-- Executing the root task of the run `BuildRunWithOutput` builds: the three
tasks as they are left, the new heap cell, and the nine events. -/
theorem buildRun_execute (clock : Nat → Int) (x : GoString) (mem : Mem) :
    ExecuteTask
        (Task.mk (NewTaskID (clock 1)) (NewRunID (clock 0)) (lit "LLM") (lit "Analyze scenario")
          (lit "") (lit "pending")
          [Task.mk (NewTaskID (clock 3)) (NewRunID (clock 0)) (lit "LLM")
              (lit "List all machinery") (lit "") (lit "pending") [] (clock 4)
              (some mem.heap.length),
            Task.mk (NewTaskID (clock 5)) (NewRunID (clock 0)) (lit "Tool")
              (lit "Categorize machinery") (lit "") (lit "pending") [] (clock 6)
              (some mem.heap.length)]
          (clock 2) (some mem.heap.length))
        (BuildRunWithOutput clock x mem).2
      = (some (Task.mk (NewTaskID (clock 1)) (NewRunID (clock 0)) (lit "LLM")
          (lit "Analyze scenario") (lit "Fake LLM response for: Analyze scenario") (lit "done")
          [Task.mk (NewTaskID (clock 3)) (NewRunID (clock 0)) (lit "LLM")
              (lit "List all machinery") (lit "Fake LLM response for: List all machinery")
              (lit "done") [] (clock 4) (some mem.heap.length),
            Task.mk (NewTaskID (clock 5)) (NewRunID (clock 0)) (lit "Tool")
              (lit "Categorize machinery") (lit "Categorized machinery") (lit "done") []
              (clock 6) (some mem.heap.length)]
          (clock 2) (some mem.heap.length)),
        { heap := mem.heap ++
            [{ ID := NewRunID (clock 0),
               Answer := lit "Fake LLM response for: Analyze scenario",
               Machinery := [lit "Excavator: Heavy Equipment", lit "Crane: Heavy Equipment",
                 lit "Bulldozer: Heavy Equipment"] }],
          trace := mem.trace ++
            [Event.status (NewTaskID (clock 1)) (lit "Analyze scenario") (lit "running"),
              Event.status (NewTaskID (clock 1)) (lit "Analyze scenario") (lit "done"),
              Event.taskDone (lit "Analyze scenario")
                (lit "Fake LLM response for: Analyze scenario"),
              Event.status (NewTaskID (clock 3)) (lit "List all machinery") (lit "running"),
              Event.status (NewTaskID (clock 3)) (lit "List all machinery") (lit "done"),
              Event.taskDone (lit "List all machinery")
                (lit "Fake LLM response for: List all machinery"),
              Event.status (NewTaskID (clock 5)) (lit "Categorize machinery") (lit "running"),
              Event.status (NewTaskID (clock 5)) (lit "Categorize machinery") (lit "done"),
              Event.taskDone (lit "Categorize machinery") (lit "Categorized machinery")] }) := by
  have hmem : (BuildRunWithOutput clock x mem).2
      = { heap := mem.heap ++ [{ ID := NewRunID (clock 0), Answer := lit "", Machinery := [] }],
          trace := mem.trace } := rfl
  rw [hmem]
  have h1 := ownStep_analyze_last (NewTaskID (clock 1)) (lit "") mem.heap mem.trace
    { ID := NewRunID (clock 0), Answer := lit "", Machinery := [] }
  have h2 := ownStep_list_last (NewTaskID (clock 3)) (lit "") mem.heap
    (mem.trace ++ [Event.status (NewTaskID (clock 1)) (lit "Analyze scenario") (lit "running"),
      Event.status (NewTaskID (clock 1)) (lit "Analyze scenario") (lit "done"),
      Event.taskDone (lit "Analyze scenario") (lit "Fake LLM response for: Analyze scenario")])
    { ID := NewRunID (clock 0), Answer := lit "Fake LLM response for: Analyze scenario",
      Machinery := [] }
  have h3 := ownStep_categorize_last (NewTaskID (clock 5)) (lit "") mem.heap
    (mem.trace ++ [Event.status (NewTaskID (clock 1)) (lit "Analyze scenario") (lit "running"),
      Event.status (NewTaskID (clock 1)) (lit "Analyze scenario") (lit "done"),
      Event.taskDone (lit "Analyze scenario") (lit "Fake LLM response for: Analyze scenario")]
      ++ [Event.status (NewTaskID (clock 3)) (lit "List all machinery") (lit "running"),
        Event.status (NewTaskID (clock 3)) (lit "List all machinery") (lit "done"),
        Event.taskDone (lit "List all machinery")
          (lit "Fake LLM response for: List all machinery")])
    { ID := NewRunID (clock 0), Answer := lit "Fake LLM response for: Analyze scenario",
      Machinery := [] ++ [lit "Excavator", lit "Crane", lit "Bulldozer"] }
  have e1 : lit "Excavator" ++ lit ": Heavy Equipment" = lit "Excavator: Heavy Equipment" := by
    decide
  have e2 : lit "Crane" ++ lit ": Heavy Equipment" = lit "Crane: Heavy Equipment" := by
    decide
  have e3 : lit "Bulldozer" ++ lit ": Heavy Equipment" = lit "Bulldozer: Heavy Equipment" := by
    decide
  have t2 := executeTask_leaf _ (NewRunID (clock 0)) _ _ _ (lit "pending") _ (clock 4) _ _ _ h2
  have t3 := executeTask_leaf _ (NewRunID (clock 0)) _ _ _ (lit "pending") _ (clock 6) _ _ _ h3
  have s3 := executeSubtasks_of_rest_some _ _ _ _ _ _ _ t3 (executeSubtasks_nil _)
  have s2 := executeSubtasks_of_rest_some _ _ _ _ _ _ _ t2 s3
  rw [executeTask_of_subtasks_some _ (NewRunID (clock 0)) _ _ _ (lit "pending") _ _ _
    (clock 2) _ _ _ _ h1 s2]
  simp only [List.nil_append, List.map_cons, List.map_nil, e1, e2, e3, List.append_assoc,
    List.cons_append]

/-! ## The gateway, the run, the traversal order, the chat messages -/

/-- C5: for every request envelope, `SendToLLM("", req)` returns (with any
positive number of calls allowed) without error a response with jsonrpc "2.0",
the ID of the request, no error, and a result object whose "text" member is
"This is a mock LLM response for testing."; two requests with the same ID get
the same response, whatever their method and params. -/
theorem sendToLLM_mock (fuel : Nat) (req : JsonRPCRequest) :
    ∃ resp result,
      SendToLLM (fuel + 1) (lit "") req = some (Except.ok resp)
        ∧ resp.JSONRPC = lit "2.0"
        ∧ resp.ID = req.ID
        ∧ resp.Error = none
        ∧ resp.Result = some result
        ∧ result.field (lit "text")
            = some (Json.str (lit "This is a mock LLM response for testing."))
        ∧ (∀ (fuel2 : Nat) (req2 : JsonRPCRequest), req2.ID = req.ID →
            SendToLLM (fuel2 + 1) (lit "") req2 = SendToLLM (fuel + 1) (lit "") req) := by
  refine ⟨{ JSONRPC := lit "2.0",
            Result := some (Json.obj
              [(lit "text", Json.str (lit "This is a mock LLM response for testing.")),
                (lit "tools_used", Json.arr [])]),
            Error := none, ID := req.ID }, _, ?_, rfl, rfl, rfl, rfl, ?_, ?_⟩
  · simp [SendToLLM, jsonMarshal]
  · rfl
  · intro fuel2 req2 hid
    simp [SendToLLM, jsonMarshal, hid]

/-- C6: for every input `x` (and any clock and initial memory), executing the
root task of `BuildRunWithOutput(x)` ends without panic and leaves the run's
`RunOutput` with the answer "Fake LLM response for: Analyze scenario" (not
empty) and the machinery `["Excavator: Heavy Equipment",
"Crane: Heavy Equipment", "Bulldozer: Heavy Equipment"]`, three items; the run
built and the result do not depend on `x`. -/
theorem buildRun_execute_output (clock : Nat → Int) (x : GoString) (mem : Mem) :
    ∃ root done final,
      (BuildRunWithOutput clock x mem).1.Tasks = [root]
        ∧ root.RunOutput = some mem.heap.length
        ∧ ExecuteTask root (BuildRunWithOutput clock x mem).2 = (some done, final)
        ∧ final.heap[mem.heap.length]?
            = some { ID := (BuildRunWithOutput clock x mem).1.ID,
                     Answer := lit "Fake LLM response for: Analyze scenario",
                     Machinery := [lit "Excavator: Heavy Equipment",
                       lit "Crane: Heavy Equipment", lit "Bulldozer: Heavy Equipment"] }
        ∧ lit "Fake LLM response for: Analyze scenario" ≠ lit ""
        ∧ [lit "Excavator: Heavy Equipment", lit "Crane: Heavy Equipment",
            lit "Bulldozer: Heavy Equipment"].length = 3
        ∧ (∀ y : GoString, BuildRunWithOutput clock y mem = BuildRunWithOutput clock x mem) := by
  refine ⟨_, _, _, rfl, rfl, buildRun_execute clock x mem, ?_, by decide, rfl, fun _ => rfl⟩
  simp [BuildRunWithOutput]

theorem preorderAll_eq_flatMap (subtasks : List Task) :
    preorderAll subtasks = subtasks.flatMap preorder := by
  induction subtasks with
  | nil => rfl
  | cons sub rest ih => rw [preorderAll_cons, ih, List.flatMap_cons]

/-- C7: `ExecuteTask` runs a task tree in pre-order (the task, then the tree
of each subtask in declared order). The inputs it reports done are always a
prefix of the pre-order; when the execution ends without panic the events are
exactly, task after task in pre-order, `Status = "running"`, `Status = "done"`
and the printed line, so a parent has finished before its first subtask
starts and a subtree has finished before the next sibling starts; it ends
without panic whenever every task that reads its `RunOutput` has one. For the
tree of `BuildRunWithOutput` the inputs in execution order are
`["Analyze scenario", "List all machinery", "Categorize machinery"]`. -/
theorem executeTask_preorder (task : Task) (mem : Mem) :
    preorder task = task :: task.Subtasks.flatMap preorder
      ∧ (∃ done : List GoString, done <+: (preorder task).map Task.Input
          ∧ executionOrder (ExecuteTask task mem).2.trace = executionOrder mem.trace ++ done)
      ∧ ((ExecuteTask task mem).1 ≠ none →
          (ExecuteTask task mem).2.trace = mem.trace ++ (preorder task).flatMap taskEvents
            ∧ executionOrder (ExecuteTask task mem).2.trace
                = executionOrder mem.trace ++ (preorder task).map Task.Input)
      ∧ ((∀ n ∈ preorder task, usesRunOutput n = true
            → ∃ a, n.RunOutput = some a ∧ a < mem.heap.length)
          → (ExecuteTask task mem).1 ≠ none)
      ∧ (∀ (clock : Nat → Int) (x : GoString), ∃ root,
          (BuildRunWithOutput clock x mem).1.Tasks = [root]
            ∧ executionOrder (ExecuteTask root (BuildRunWithOutput clock x mem).2).2.trace
                = executionOrder mem.trace
                    ++ [lit "Analyze scenario", lit "List all machinery",
                        lit "Categorize machinery"]) := by
  refine ⟨?_, executeTask_order_prefix task mem, ?_, executeTask_ok task mem, ?_⟩
  · cases task with
    | mk taskID runID typ input output status subtasks createdAt ro =>
      rw [preorder_mk, preorderAll_eq_flatMap]
      rfl
  · intro hdone
    have h := executeTask_trace_of_done task mem hdone
    refine ⟨h, ?_⟩
    rw [h, executionOrder_append, executionOrder_flatMap]
  · intro clock x
    refine ⟨_, rfl, ?_⟩
    rw [buildRun_execute clock x mem]
    simp only [executionOrder_append]
    rfl

theorem executeTask_two_leaves :
    (ExecuteTask
        (Task.mk (lit "t1") (lit "r") (lit "LLM") (lit "a") (lit "") (lit "pending")
          [Task.mk (lit "t2") (lit "r") (lit "LLM") (lit "b") (lit "") (lit "pending") [] 0 none,
            Task.mk (lit "t3") (lit "r") (lit "Tool") (lit "c") (lit "") (lit "pending") [] 0
              none]
          0 none)
        { heap := [], trace := [] }).1
      = some (Task.mk (lit "t1") (lit "r") (lit "LLM") (lit "a")
          (lit "Fake LLM response for: a") (lit "done")
          [Task.mk (lit "t2") (lit "r") (lit "LLM") (lit "b") (lit "Fake LLM response for: b")
              (lit "done") [] 0 none,
            Task.mk (lit "t3") (lit "r") (lit "Tool") (lit "c") (lit "") (lit "done") [] 0
              none]
          0 none) := by
  rfl

/-- C7 at a concrete tree: a root with two leaves, none of which reads a
`RunOutput`, run from the empty memory. -/
theorem executeTask_preorder_witness :
    executionOrder
        (ExecuteTask
          (Task.mk (lit "t1") (lit "r") (lit "LLM") (lit "a") (lit "") (lit "pending")
            [Task.mk (lit "t2") (lit "r") (lit "LLM") (lit "b") (lit "") (lit "pending") [] 0
                none,
              Task.mk (lit "t3") (lit "r") (lit "Tool") (lit "c") (lit "") (lit "pending") [] 0
                none]
            0 none)
          { heap := [], trace := [] }).2.trace
      = [lit "a", lit "b", lit "c"] :=
  ((executeTask_preorder
      (Task.mk (lit "t1") (lit "r") (lit "LLM") (lit "a") (lit "") (lit "pending")
        [Task.mk (lit "t2") (lit "r") (lit "LLM") (lit "b") (lit "") (lit "pending") [] 0 none,
          Task.mk (lit "t3") (lit "r") (lit "Tool") (lit "c") (lit "") (lit "pending") [] 0
            none]
        0 none)
      { heap := [], trace := [] }).2.2.1
    (by rw [executeTask_two_leaves]; exact Option.some_ne_none _)).2

theorem mem_fmtElems (xs : List GoString) (name : GoString) (h : name ∈ xs) :
    name <:+: fmtElems xs := by
  induction xs with
  | nil => simp at h
  | cons x rest ih =>
    cases rest with
    | nil =>
      simp only [List.mem_singleton] at h
      rw [h]
      exact List.infix_refl _
    | cons y rest =>
      simp only [fmtElems]
      rcases List.mem_cons.1 h with rfl | h'
      · rw [List.append_assoc]
        exact (List.prefix_append _ _).isInfix
      · exact (ih h').trans (List.suffix_append _ _).isInfix

/-- C8: the message list `chatHandler` sends is `[toolAdvisory?, systemPrompt,
userText]`. With a non-empty tool list it has exactly 3 messages, the first a
system message whose content is "Use the following tools for this request: "
followed by a rendering that contains every tool name, placed before the base
system prompt; with an empty tool list it has exactly the 2 other messages; in
both cases the last message has role user and the text as content. The
request envelope carries this list, built from the tools `DetermineTools`
detects. (`BuildLLMMessagesDynamic`, which the handler does not call, gives
the system prompt of the detected category, then the user text.) -/
theorem chatMessages_order (text : GoString) (toolsToRun : List GoString) :
    (toolsToRun ≠ [] →
        chatMessages text toolsToRun
            = [ { Role := lit "system",
                  Content := lit "Use the following tools for this request: "
                    ++ fmtStrings toolsToRun },
                { Role := lit "system", Content := lit "You are a risk assessment assistant." },
                { Role := lit "user", Content := text } ]
          ∧ (chatMessages text toolsToRun).length = 3
          ∧ (∀ name ∈ toolsToRun, name <:+: fmtStrings toolsToRun))
      ∧ (toolsToRun = [] →
          chatMessages text toolsToRun
              = [ { Role := lit "system", Content := lit "You are a risk assessment assistant." },
                  { Role := lit "user", Content := text } ]
            ∧ (chatMessages text toolsToRun).length = 2)
      ∧ (chatMessages text toolsToRun).getLast? = some { Role := lit "user", Content := text }
      ∧ (∀ mapLower : GoString → GoString,
          (chatRequest mapLower text).Params
            = LLMParams.toJson
                { Messages := chatMessages text (DetermineTools mapLower text) })
      ∧ (∃ inputType, DetectInputType text = some inputType
          ∧ BuildLLMMessagesDynamic text
              = some [ { Role := lit "system", Content := BuildSystemPrompt inputType },
                       { Role := lit "user", Content := text } ]) := by
  refine ⟨?_, ?_, ?_, fun _ => rfl, ?_⟩
  · intro hne
    have hpos : toolsToRun.length > 0 := List.length_pos.2 hne
    refine ⟨by simp [chatMessages, hpos], by simp [chatMessages, hpos], ?_⟩
    intro name hname
    have h1 := mem_fmtElems toolsToRun name hname
    unfold fmtStrings
    exact (h1.trans (List.suffix_append _ _).isInfix).trans (List.prefix_append _ _).isInfix
  · rintro rfl
    exact ⟨rfl, rfl⟩
  · by_cases hpos : toolsToRun.length > 0
    · simp [chatMessages, hpos]
    · simp [chatMessages, hpos]
  · obtain ⟨inputType, hin⟩ := detectInputType_total text
    exact ⟨inputType, hin, by simp [BuildLLMMessagesDynamic, hin]⟩

set_option maxRecDepth 10000 in
/-- C8 at a concrete input: the two tools of the end-to-end scenario. -/
theorem chatMessages_order_witness :
    chatMessages (lit "Please analyze image and categorize machinery")
        [lit "analyze_image", lit "categorize_machinery"]
      = [ { Role := lit "system",
            Content := lit
              "Use the following tools for this request: [analyze_image categorize_machinery]" },
          { Role := lit "system", Content := lit "You are a risk assessment assistant." },
          { Role := lit "user",
            Content := lit "Please analyze image and categorize machinery" } ] :=
  ((chatMessages_order (lit "Please analyze image and categorize machinery")
      [lit "analyze_image", lit "categorize_machinery"]).1 (by decide)).1.trans rfl

/-- C9: for a `RunOutput` `r` at address `a` and a Tool task with input
"Categorize machinery" and no subtasks that points to it, `ExecuteTask` ends
without panic, sets the task's output to "Categorized machinery" (and its
status to "done"), and replaces the machinery by a list of the same length
whose `i`-th element is `r.Machinery[i]` followed by ": Heavy Equipment";
`ID` and `Answer` of the cell and every other cell are unchanged. -/
theorem executeTask_categorize (taskID runID output status : GoString) (createdAt : Int)
    (a : Nat) (mem : Mem) (r : RunOutput) (h : mem.heap[a]? = some r) :
    ∃ final r2,
      ExecuteTask
          (Task.mk taskID runID (lit "Tool") (lit "Categorize machinery") output status []
            createdAt (some a)) mem
        = (some (Task.mk taskID runID (lit "Tool") (lit "Categorize machinery")
            (lit "Categorized machinery") (lit "done") [] createdAt (some a)), final)
        ∧ final.heap[a]? = some r2
        ∧ r2.ID = r.ID
        ∧ r2.Answer = r.Answer
        ∧ r2.Machinery.length = r.Machinery.length
        ∧ (∀ (i : Nat) (m : GoString), r.Machinery[i]? = some m
            → r2.Machinery[i]? = some (m ++ lit ": Heavy Equipment"))
        ∧ r2.Machinery = r.Machinery.map (fun m => m ++ lit ": Heavy Equipment")
        ∧ (∀ b : Nat, b ≠ a → final.heap[b]? = mem.heap[b]?) := by
  have ha : a < mem.heap.length := (List.getElem?_eq_some_iff.1 h).1
  refine ⟨_, { r with Machinery := r.Machinery.map (fun m => m ++ lit ": Heavy Equipment") },
    executeTask_leaf _ _ _ _ _ _ _ _ _ _ _ (ownStep_categorize taskID output a mem r h),
    ?_, rfl, rfl, ?_, ?_, rfl, ?_⟩
  · simp [ha]
  · simp
  · intro i m hm
    simp [hm]
  · intro b hb
    simp [List.getElem?_set, Ne.symm hb]

/-- C9 at a concrete input: a cell holding two machines. -/
theorem executeTask_categorize_witness :
    ∃ final r2,
      ExecuteTask
          (Task.mk (lit "task-1") (lit "run-1") (lit "Tool") (lit "Categorize machinery")
            (lit "") (lit "pending") [] 0 (some 0))
          { heap := [{ ID := lit "run-1", Answer := lit "", Machinery := [lit "Crane", lit "Lift"] }],
            trace := [] }
        = (some (Task.mk (lit "task-1") (lit "run-1") (lit "Tool") (lit "Categorize machinery")
            (lit "Categorized machinery") (lit "done") [] 0 (some 0)), final)
        ∧ final.heap[0]? = some r2
        ∧ r2.Machinery = [lit "Crane: Heavy Equipment", lit "Lift: Heavy Equipment"] := by
  obtain ⟨final, r2, h1, h2, _, _, _, _, h7, _⟩ :=
    executeTask_categorize (lit "task-1") (lit "run-1") (lit "") (lit "pending") 0 0
      { heap := [{ ID := lit "run-1", Answer := lit "", Machinery := [lit "Crane", lit "Lift"] }],
        trace := [] }
      { ID := lit "run-1", Answer := lit "", Machinery := [lit "Crane", lit "Lift"] } rfl
  exact ⟨final, r2, h1, h2, h7.trans (by decide)⟩

/-! ## The envelope codec -/

theorem coerce_of_valid (s : GoString) (h : validUTF8 s = true) : coerceUTF8 s = s := by
  simpa [validUTF8] using h

theorem keyLess_irrefl (a : GoString) : keyLess a a = false := by
  induction a with
  | nil => rfl
  | cons x xs ih => simp [keyLess, ih]

theorem keyLess_asymm (a b : GoString) (h : keyLess a b = true) : keyLess b a = false := by
  induction a generalizing b with
  | nil =>
    cases b with
    | nil => rfl
    | cons y ys => rfl
  | cons x xs ih =>
    cases b with
    | nil => simp [keyLess] at h
    | cons y ys =>
      simp only [keyLess, Bool.or_eq_true, decide_eq_true_eq, Bool.and_eq_true] at h
      simp only [keyLess, Bool.or_eq_false_iff, decide_eq_false_iff_not, Bool.and_eq_false_imp,
        decide_eq_true_eq]
      rcases h with h | ⟨hxy, hrest⟩
      · refine ⟨by omega, ?_⟩
        intro hyx
        rw [hyx] at h
        omega
      · refine ⟨by rw [hxy]; omega, fun _ => ih ys hrest⟩

theorem insertMember_last (kv : GoString × Json) (acc : List (GoString × Json))
    (h : ∀ x ∈ acc, keyLess x.1 kv.1 = true) : insertMember kv acc = acc ++ [kv] := by
  induction acc with
  | nil => rfl
  | cons x rest ih =>
    have hx := h x (List.mem_cons_self _ _)
    have hne : kv.1 ≠ x.1 := by
      intro heq
      rw [heq, keyLess_irrefl] at hx
      exact absurd hx (by simp)
    have hnl : keyLess kv.1 x.1 = false := keyLess_asymm _ _ hx
    simp only [insertMember, hne, if_false, hnl, Bool.false_eq_true, List.cons_append]
    rw [ih (fun y hy => h y (List.mem_cons_of_mem _ hy))]

theorem foldl_insertMember (ms acc : List (GoString × Json))
    (hacc : ∀ x ∈ acc, ∀ y ∈ ms, keyLess x.1 y.1 = true)
    (hms : List.Pairwise (fun x y => keyLess x.1 y.1 = true) ms) :
    ms.foldl (fun acc kv => insertMember kv acc) acc = acc ++ ms := by
  induction ms generalizing acc with
  | nil => simp
  | cons kv rest ih =>
    rw [List.pairwise_cons] at hms
    rw [List.foldl_cons,
      insertMember_last kv acc (fun x hx => hacc x hx kv (List.mem_cons_self _ _)),
      ih (acc ++ [kv]) ?_ hms.2]
    · simp
    · intro x hx y hy
      rcases List.mem_append.1 hx with h | h
      · exact hacc x h y (List.mem_cons_of_mem _ hy)
      · simp only [List.mem_singleton] at h
        rw [h]
        exact hms.1 y hy

theorem plainMembers_pairwise (ms : List (GoString × Json)) (h : plainMembers ms = true) :
    List.Pairwise (fun x y => keyLess x.1 y.1 = true) ms := by
  induction ms with
  | nil => exact List.Pairwise.nil
  | cons kv rest ih =>
    obtain ⟨k, v⟩ := kv
    simp only [plainMembers, Bool.and_eq_true, List.all_eq_true] at h
    exact List.Pairwise.cons (fun y hy => h.1.2 y hy) (ih h.2)

theorem mapMembers_of_plain (ms : List (GoString × Json)) (h : plainMembers ms = true) :
    mapMembers ms = ms := by
  unfold mapMembers
  rw [foldl_insertMember ms [] (fun x hx => by simp at hx) (plainMembers_pairwise ms h)]
  rfl

mutual

theorem encodeAny_of_plain : ∀ (p : Json), plainPayload p = true → encodeAny p = p
  | Json.null, _ => rfl
  | Json.bool _, _ => rfl
  | Json.num _, _ => rfl
  | Json.str s, h => by
    simp only [plainPayload] at h
    simp only [encodeAny, coerce_of_valid s h]
  | Json.arr elems, h => by
    simp only [plainPayload] at h
    simp only [encodeAny, encodeAnyList_of_plain elems h]
  | Json.obj members, h => by
    simp only [plainPayload] at h
    simp only [encodeAny, encodeAnyMembers_of_plain members h]

theorem encodeAnyList_of_plain : ∀ (l : List Json), plainList l = true → encodeAnyList l = l
  | [], _ => rfl
  | v :: rest, h => by
    simp only [plainList, Bool.and_eq_true] at h
    simp only [encodeAnyList, encodeAny_of_plain v h.1, encodeAnyList_of_plain rest h.2]

theorem encodeAnyMembers_of_plain : ∀ (ms : List (GoString × Json)),
    plainMembers ms = true → encodeAnyMembers ms = ms
  | [], _ => rfl
  | (k, v) :: rest, h => by
    simp only [plainMembers, Bool.and_eq_true] at h
    simp only [encodeAnyMembers, coerce_of_valid k h.1.1.1, encodeAny_of_plain v h.1.1.2,
      encodeAnyMembers_of_plain rest h.2]

end

mutual

theorem decodeAny_of_plain : ∀ (p : Json), plainPayload p = true → decodeAny p = some p
  | Json.null, _ => rfl
  | Json.bool _, _ => rfl
  | Json.num n, h => by
    simp only [plainPayload, decide_eq_true_eq] at h
    simp only [decodeAny, h, Option.map_some']
  | Json.str s, h => by
    simp only [plainPayload] at h
    simp only [decodeAny, coerce_of_valid s h]
  | Json.arr elems, h => by
    simp only [plainPayload] at h
    simp only [decodeAny, decodeAnyList_of_plain elems h, Option.map_some']
  | Json.obj members, h => by
    simp only [plainPayload] at h
    simp only [decodeAny, decodeAnyMembers_of_plain members h, Option.map_some',
      mapMembers_of_plain members h]

theorem decodeAnyList_of_plain : ∀ (l : List Json), plainList l = true →
    decodeAnyList l = some l
  | [], _ => rfl
  | v :: rest, h => by
    simp only [plainList, Bool.and_eq_true] at h
    simp only [decodeAnyList, decodeAny_of_plain v h.1, decodeAnyList_of_plain rest h.2]

theorem decodeAnyMembers_of_plain : ∀ (ms : List (GoString × Json)),
    plainMembers ms = true → decodeAnyMembers ms = some ms
  | [], _ => rfl
  | (k, v) :: rest, h => by
    simp only [plainMembers, Bool.and_eq_true] at h
    simp only [decodeAnyMembers, coerce_of_valid k h.1.1.1, decodeAny_of_plain v h.1.1.2,
      decodeAnyMembers_of_plain rest h.2]

end

theorem statusWrites_append (a b : List Event) :
    statusWrites (a ++ b) = statusWrites a ++ statusWrites b := by
  induction a with
  | nil => rfl
  | cons e rest ih =>
    cases e with
    | status taskID input status => simpa [statusWrites] using ih
    | taskDone input output => simpa [statusWrites] using ih

theorem statusWrites_taskEvents (task : Task) :
    statusWrites (taskEvents task) = [lit "running", lit "done"] := rfl

theorem statusWrites_flatMap (tasks : List Task) :
    ∀ st ∈ statusWrites (tasks.flatMap taskEvents), st = lit "running" ∨ st = lit "done" := by
  induction tasks with
  | nil => intro st hst; simp [statusWrites] at hst
  | cons t rest ih =>
    intro st hst
    rw [List.flatMap_cons, statusWrites_append, statusWrites_taskEvents] at hst
    rcases List.mem_append.1 hst with h | h
    · simpa using h
    · exact ih st h

mutual

/-- Whatever the tree and whether or not a panic stops the run, the events
added to the trace assign only "running" and "done" to `Status`. -/
theorem executeTask_status_values : ∀ (task : Task) (mem : Mem),
    ∃ new : List Event, (ExecuteTask task mem).2.trace = mem.trace ++ new
      ∧ ∀ st ∈ statusWrites new, st = lit "running" ∨ st = lit "done"
  | Task.mk taskID runID typ input output status subtasks createdAt ro, mem => by
    have hc := ownStep_cases taskID runID typ input output status subtasks createdAt ro mem
    rcases ho : ownStep taskID typ input output ro mem with ⟨_ | o1, m1⟩
    · rw [executeTask_of_own_none _ _ _ _ _ _ _ _ _ _ _ ho]
      rw [ho] at hc
      rcases hc with ⟨_, htr⟩ | ⟨hn, _⟩
      · refine ⟨_, htr, ?_⟩
        intro st hst
        left
        simpa [statusWrites] using hst
      · simp at hn
    · rw [ho] at hc
      rcases hc with ⟨hn, _⟩ | ⟨_, htr⟩
      · simp at hn
      · obtain ⟨new, hnew, hvals⟩ := executeSubtasks_status_values subtasks m1
        have hres : (ExecuteTask
            (Task.mk taskID runID typ input output status subtasks createdAt ro) mem).2
            = (ExecuteSubtasks subtasks m1).2 := by
          rcases hs : ExecuteSubtasks subtasks m1 with ⟨_ | s2, m2⟩
          · rw [executeTask_of_subtasks_none _ _ _ _ _ _ _ _ _ _ _ _ _ ho hs]
          · rw [executeTask_of_subtasks_some _ _ _ _ _ _ _ _ _ _ _ _ _ _ ho hs]
        simp only at htr
        refine ⟨taskEvents
          (Task.mk taskID runID typ input output status subtasks createdAt ro) ++ new, ?_, ?_⟩
        · rw [hres, hnew, htr, List.append_assoc]
        · intro st hst
          rw [statusWrites_append, statusWrites_taskEvents] at hst
          rcases List.mem_append.1 hst with h | h
          · simpa using h
          · exact hvals st h

theorem executeSubtasks_status_values : ∀ (subtasks : List Task) (mem : Mem),
    ∃ new : List Event, (ExecuteSubtasks subtasks mem).2.trace = mem.trace ++ new
      ∧ ∀ st ∈ statusWrites new, st = lit "running" ∨ st = lit "done"
  | [], mem => ⟨[], by simp [ExecuteSubtasks], by intro st hst; simp [statusWrites] at hst⟩
  | sub :: rest, mem => by
    obtain ⟨new1, hnew1, hvals1⟩ := executeTask_status_values sub mem
    rcases hh : ExecuteTask sub mem with ⟨_ | s2, m1⟩
    · rw [executeSubtasks_of_head_none _ _ _ _ hh]
      rw [hh] at hnew1
      exact ⟨new1, hnew1, hvals1⟩
    · rw [hh] at hnew1
      obtain ⟨new2, hnew2, hvals2⟩ := executeSubtasks_status_values rest m1
      have hres : (ExecuteSubtasks (sub :: rest) mem).2 = (ExecuteSubtasks rest m1).2 := by
        rcases hr : ExecuteSubtasks rest m1 with ⟨_ | r2, m2⟩
        · rw [executeSubtasks_of_rest_none _ _ _ _ _ _ hh hr]
        · rw [executeSubtasks_of_rest_some _ _ _ _ _ _ _ hh hr]
      simp only at hnew1
      refine ⟨new1 ++ new2, ?_, ?_⟩
      · rw [hres, hnew2, hnew1, List.append_assoc]
      · intro st hst
        rw [statusWrites_append] at hst
        rcases List.mem_append.1 hst with h | h
        · exact hvals1 st h
        · exact hvals2 st h

end

mutual

/-- A run that ends without panic leaves every task of the tree with status
"done" and the output of `outputAfter`, and keeps the shape of the tree: a
function `f` of a task that does not look at `Output`, `Status` and
`Subtasks` has the same values along the pre-order before and after. -/
theorem executeTask_result : ∀ {β : Type} (f : Task → β)
    (_ : ∀ (taskID runID typ input o1 s1 o2 s2 : GoString) (subs1 subs2 : List Task)
      (createdAt : Int) (ro : Option Nat),
      f (Task.mk taskID runID typ input o1 s1 subs1 createdAt ro)
        = f (Task.mk taskID runID typ input o2 s2 subs2 createdAt ro))
    (task : Task) (mem : Mem) (done : Task) (final : Mem),
    ExecuteTask task mem = (some done, final) →
      (∀ n ∈ preorder done, n.Status = lit "done")
        ∧ (preorder done).map f = (preorder task).map f
        ∧ (preorder done).map Task.Output = (preorder task).map outputAfter
  | β, f, hf, Task.mk taskID runID typ input output status subtasks createdAt ro, mem, done,
      final => by
    intro hexec
    have hc := ownStep_cases taskID runID typ input output status subtasks createdAt ro mem
    rcases ho : ownStep taskID typ input output ro mem with ⟨_ | o1, m1⟩
    · rw [executeTask_of_own_none _ _ _ _ _ _ _ _ _ _ _ ho] at hexec
      simp at hexec
    · rw [ho] at hc
      rcases hc with ⟨hn, _⟩ | ⟨hout, _⟩
      · simp at hn
      · simp only [Option.some.injEq] at hout
        rcases hs : ExecuteSubtasks subtasks m1 with ⟨_ | s2, m2⟩
        · rw [executeTask_of_subtasks_none _ _ _ _ _ _ _ _ _ _ _ _ _ ho hs] at hexec
          simp at hexec
        · rw [executeTask_of_subtasks_some _ _ _ _ _ _ _ _ _ _ _ _ _ _ ho hs] at hexec
          simp only [Prod.mk.injEq, Option.some.injEq] at hexec
          obtain ⟨hdone, _⟩ := hexec
          obtain ⟨ih1, ih2, ih3⟩ := executeSubtasks_result f hf subtasks m1 s2 m2 hs
          rw [← hdone, preorder_mk, preorder_mk]
          refine ⟨?_, ?_, ?_⟩
          · intro n hn
            rcases List.mem_cons.1 hn with rfl | hn'
            · rfl
            · exact ih1 n hn'
          · rw [List.map_cons, List.map_cons, ih2,
              hf taskID runID typ input o1 (lit "done") output status s2 subtasks createdAt ro]
          · rw [List.map_cons, List.map_cons, ih3, ← hout]
            rfl

theorem executeSubtasks_result : ∀ {β : Type} (f : Task → β)
    (_ : ∀ (taskID runID typ input o1 s1 o2 s2 : GoString) (subs1 subs2 : List Task)
      (createdAt : Int) (ro : Option Nat),
      f (Task.mk taskID runID typ input o1 s1 subs1 createdAt ro)
        = f (Task.mk taskID runID typ input o2 s2 subs2 createdAt ro))
    (subtasks : List Task) (mem : Mem) (done : List Task) (final : Mem),
    ExecuteSubtasks subtasks mem = (some done, final) →
      (∀ n ∈ preorderAll done, n.Status = lit "done")
        ∧ (preorderAll done).map f = (preorderAll subtasks).map f
        ∧ (preorderAll done).map Task.Output = (preorderAll subtasks).map outputAfter
  | β, f, hf, [], mem, done, final => by
    intro hexec
    rw [executeSubtasks_nil] at hexec
    simp only [Prod.mk.injEq, Option.some.injEq] at hexec
    obtain ⟨hdone, _⟩ := hexec
    rw [← hdone]
    simp [preorderAll]
  | β, f, hf, sub :: rest, mem, done, final => by
    intro hexec
    rcases hh : ExecuteTask sub mem with ⟨_ | s2, m1⟩
    · rw [executeSubtasks_of_head_none _ _ _ _ hh] at hexec
      simp at hexec
    · rcases hr : ExecuteSubtasks rest m1 with ⟨_ | r2, m2⟩
      · rw [executeSubtasks_of_rest_none _ _ _ _ _ _ hh hr] at hexec
        simp at hexec
      · rw [executeSubtasks_of_rest_some _ _ _ _ _ _ _ hh hr] at hexec
        simp only [Prod.mk.injEq, Option.some.injEq] at hexec
        obtain ⟨hdone, _⟩ := hexec
        obtain ⟨a1, a2, a3⟩ := executeTask_result f hf sub mem s2 m1 hh
        obtain ⟨b1, b2, b3⟩ := executeSubtasks_result f hf rest m1 r2 m2 hr
        rw [← hdone, preorderAll_cons, preorderAll_cons]
        refine ⟨?_, ?_, ?_⟩
        · intro n hn
          rcases List.mem_append.1 hn with h | h
          · exact a1 n h
          · exact b1 n h
        · rw [List.map_append, List.map_append, a2, b2]
        · rw [List.map_append, List.map_append, a3, b3]

end

/-- C11, as the code has it: on a task tree (any types, inputs and initial
statuses) in which every task that reads its `RunOutput` holds one,
`ExecuteTask` on the root returns without panic, and afterwards every task of
the tree, the root and all its descendants, has status "done" (the tasks are
the same, in the same order, with the outputs of `outputAfter`); the events
are, task after task, `Status = "running"`, `Status = "done"` and the printed
line. On every tree, panic or not, the only values assigned to `Status` are
"running" and "done". -/
theorem executeTask_all_done (task : Task) (mem : Mem)
    (h : ∀ n ∈ preorder task, usesRunOutput n = true
      → ∃ a, n.RunOutput = some a ∧ a < mem.heap.length) :
    (∃ done final,
        ExecuteTask task mem = (some done, final)
          ∧ (∀ n ∈ preorder done, n.Status = lit "done")
          ∧ (∀ n ∈ preorder done, n.Status ≠ lit "pending" ∧ n.Status ≠ lit "running")
          ∧ (preorder done).map Task.ID = (preorder task).map Task.ID
          ∧ (preorder done).map Task.Input = (preorder task).map Task.Input
          ∧ (preorder done).length = (preorder task).length
          ∧ (preorder done).map Task.Output = (preorder task).map outputAfter
          ∧ final.trace = mem.trace ++ (preorder task).flatMap taskEvents)
      ∧ (∀ (other : Task) (m : Mem), ∃ new : List Event,
          (ExecuteTask other m).2.trace = m.trace ++ new
            ∧ ∀ st ∈ statusWrites new, st = lit "running" ∨ st = lit "done") := by
  refine ⟨?_, executeTask_status_values⟩
  have hok := executeTask_ok task mem h
  have htr := executeTask_trace_of_done task mem hok
  rcases hexec : ExecuteTask task mem with ⟨_ | done, final⟩
  · rw [hexec] at hok
    exact absurd rfl hok
  · rw [hexec] at htr
    have hid := executeTask_result Task.ID (fun _ _ _ _ _ _ _ _ _ _ _ _ => rfl)
      task mem done final hexec
    have hin := executeTask_result Task.Input (fun _ _ _ _ _ _ _ _ _ _ _ _ => rfl)
      task mem done final hexec
    have hne1 : lit "done" ≠ lit "pending" := by decide
    have hne2 : lit "done" ≠ lit "running" := by decide
    refine ⟨done, final, rfl, hid.1, ?_, hid.2.1, hin.2.1, ?_, hid.2.2, htr⟩
    · intro n hn
      rw [hid.1 n hn]
      exact ⟨hne1, hne2⟩
    · have := congrArg List.length hid.2.1
      simpa using this

/-- C11 at a concrete input: a root with two leaves, all three pointing to the
one cell of the heap, every task "pending" at the start. -/
theorem executeTask_all_done_witness :
    ∃ done final,
      ExecuteTask
          (Task.mk (lit "t1") (lit "r") (lit "LLM") (lit "Analyze scenario") (lit "")
            (lit "pending")
            [Task.mk (lit "t2") (lit "r") (lit "LLM") (lit "List all machinery") (lit "")
                (lit "pending") [] 0 (some 0),
              Task.mk (lit "t3") (lit "r") (lit "Tool") (lit "Categorize machinery") (lit "")
                (lit "pending") [] 0 (some 0)]
            0 (some 0))
          { heap := [{ ID := lit "r", Answer := lit "", Machinery := [] }], trace := [] }
        = (some done, final)
        ∧ ∀ n ∈ preorder done, n.Status = lit "done" := by
  obtain ⟨⟨done, final, h1, h2, _⟩, _⟩ :=
    executeTask_all_done
      (Task.mk (lit "t1") (lit "r") (lit "LLM") (lit "Analyze scenario") (lit "")
        (lit "pending")
        [Task.mk (lit "t2") (lit "r") (lit "LLM") (lit "List all machinery") (lit "")
            (lit "pending") [] 0 (some 0),
          Task.mk (lit "t3") (lit "r") (lit "Tool") (lit "Categorize machinery") (lit "")
            (lit "pending") [] 0 (some 0)]
        0 (some 0))
      { heap := [{ ID := lit "r", Answer := lit "", Machinery := [] }], trace := [] }
      (by
        intro n hn _
        refine ⟨0, ?_, by decide⟩
        simp only [preorder, preorderAll, List.append_nil, List.mem_cons, List.mem_singleton,
          List.cons_append, List.nil_append, List.not_mem_nil, or_false] at hn
        rcases hn with rfl | rfl | rfl <;> rfl)
  exact ⟨done, final, h1, h2⟩

/-- C11 as stated fails: an LLM task with input "Analyze scenario" whose
`RunOutput` is nil makes `ExecuteTask` panic on `task.RunOutput.Answer` after
`Status = "running"`: the run does not return and the task is never "done".
Under a root that needs no `RunOutput` the same task stops the run after the
root is done, and its sibling is never started (it stays "pending"). -/
theorem executeTask_nil_runOutput_panics :
    ExecuteTask
        (Task.mk (lit "t1") (lit "r") (lit "LLM") (lit "Analyze scenario") (lit "")
          (lit "pending") [] 0 none)
        { heap := [], trace := [] }
      = (none,
          { heap := [],
            trace := [Event.status (lit "t1") (lit "Analyze scenario") (lit "running")] })
      ∧ ExecuteTask
          (Task.mk (lit "t0") (lit "r") (lit "LLM") (lit "Plan") (lit "") (lit "pending")
            [Task.mk (lit "t1") (lit "r") (lit "LLM") (lit "Analyze scenario") (lit "")
                (lit "pending") [] 0 none,
              Task.mk (lit "t2") (lit "r") (lit "Tool") (lit "Categorize machinery") (lit "")
                (lit "pending") [] 0 none]
            0 none)
          { heap := [], trace := [] }
        = (none,
            { heap := [],
              trace := [Event.status (lit "t0") (lit "Plan") (lit "running"),
                Event.status (lit "t0") (lit "Plan") (lit "done"),
                Event.taskDone (lit "Plan") (lit "Fake LLM response for: Plan"),
                Event.status (lit "t1") (lit "Analyze scenario") (lit "running")] }) := by
  exact ⟨rfl, rfl⟩

/-! ## The gateway with a backend configured -/

theorem sendToLLM_step (fuel : Nat) (apiURL : GoString) (req : JsonRPCRequest)
    (h : apiURL ≠ lit "") :
    SendToLLM (fuel + 1) apiURL req = SendToLLM fuel apiURL req := by
  rw [SendToLLM, if_neg h]
  rcases SendToLLM fuel apiURL req with _ | (err | resp) <;> rfl

/-- With a non-empty endpoint no number of nested calls reaches a `return`. -/
theorem sendToLLM_nonempty (fuel : Nat) (apiURL : GoString) (req : JsonRPCRequest)
    (h : apiURL ≠ lit "") : SendToLLM fuel apiURL req = none := by
  induction fuel with
  | zero => rfl
  | succ n ih => rw [sendToLLM_step n apiURL req h, ih]

/-- C12 at the failing input: with the endpoint "http://localhost:8080/mcp"
the call `SendToLLM(apiURL, rpcReq)` is answered by the same call on the same
arguments, so no number of nested calls returns a response or an error. -/
theorem sendToLLM_real_endpoint_never_returns (fuel : Nat) (req : JsonRPCRequest) :
    SendToLLM (fuel + 1) (lit "http://localhost:8080/mcp") req
        = SendToLLM fuel (lit "http://localhost:8080/mcp") req
      ∧ SendToLLM fuel (lit "http://localhost:8080/mcp") req = none :=
  ⟨sendToLLM_step fuel _ req (by decide), sendToLLM_nonempty fuel _ req (by decide)⟩

end GoBackend
